import Mathlib

/-!
Verification development for the weather-products pipeline
(`dagster_jobs/weather_pipeline.py`, `api/app.py`).

The write side (fetch, transform, upload) and the read side (the product
listing endpoint) are embedded as pure Lean functions over an explicit
object-store state.  Python runtime values flowing through the pipeline
(JSON payloads, dict rows, None) are embedded as the inductive `PyVal`;
JSON numbers are represented by their literal token (the pipeline performs
no arithmetic on them, so the token is a faithful representation).
Fallible Python operations (attribute access on a non-dict, subscripting a
non-sequence, ...) return `Except PyErr`.
-/

/-- Embedding of the Python runtime values handled by the pipeline:
`None`, booleans, numbers (as their literal/`repr` token), strings, lists
and dicts (association lists in insertion order, as Python dicts are). -/
inductive PyVal where
  | none : PyVal
  | bool : Bool → PyVal
  | num : String → PyVal
  | str : String → PyVal
  | list : List PyVal → PyVal
  | dict : List (String × PyVal) → PyVal

/-- Errors raised by the embedded Python operations. -/
inductive PyErr where
  | attributeError : PyErr
  | typeError : PyErr
  | keyError : PyErr
  | indexError : PyErr
deriving DecidableEq, Repr

/-- Whether the value is a Python mapping (dict). -/
def PyVal.isDict : PyVal → Bool
  | .dict _ => true
  | _ => false

/-- First-match lookup in a dict's association list. -/
def dictLookup (kvs : List (String × PyVal)) (k : String) : Option PyVal :=
  (kvs.find? (fun e => e.1 == k)).map (fun e => e.2)

/-- Python `d.get(k, default)`: raises `AttributeError` unless `d` is a dict. -/
def pyGetD (v : PyVal) (k : String) (d : PyVal) : Except PyErr PyVal :=
  match v with
  | .dict kvs => .ok ((dictLookup kvs k).getD d)
  | _ => .error .attributeError

/-- Python `d.get(k)` (default `None`). -/
def pyGet (v : PyVal) (k : String) : Except PyErr PyVal :=
  pyGetD v k .none

/-- Python truthiness.  A number token is truthy when it denotes a nonzero
number, i.e. contains a nonzero digit. -/
def truthy : PyVal → Bool
  | .none => false
  | .bool b => b
  | .num t => t.toList.any (fun c => 49 ≤ c.toNat && c.toNat ≤ 57)
  | .str s => !(s.toList.isEmpty)
  | .list xs => !xs.isEmpty
  | .dict kvs => !kvs.isEmpty

/-- Python `a or b`: `a` when truthy, else `b`. -/
def pyOr (a b : PyVal) : PyVal :=
  if truthy a then a else b

/-- Python subscript `v[0]` as used on the `weather` field: head of a list
or string; `KeyError` on a (string-keyed) dict, `TypeError` otherwise. -/
def pyIndex0 : PyVal → Except PyErr PyVal
  | .list [] => .error .indexError
  | .list (x :: _) => .ok x
  | .str s =>
    match s.toList with
    | [] => .error .indexError
    | c :: _ => .ok (.str (String.mk [c]))
  | .dict _ => .error .keyError
  | _ => .error .typeError

/-- Replace-or-append assignment `kvs[k] = val` on an association list
(existing key keeps its position, as in Python dicts). -/
def dictSet (kvs : List (String × PyVal)) (k : String) (val : PyVal) :
    List (String × PyVal) :=
  if (kvs.find? (fun e => e.1 == k)).isSome then
    kvs.map (fun e => if e.1 == k then (k, val) else e)
  else
    kvs ++ [(k, val)]

/-- Python item assignment `v[k] = val`: only dicts accept a string key. -/
def pySetItem (v : PyVal) (k : String) (val : PyVal) : Except PyErr PyVal :=
  match v with
  | .dict kvs => .ok (.dict (dictSet kvs k val))
  | _ => .error .typeError

mutual

/-- Python `str()` / f-string rendering of a value, as used in the id hash
input `f"\x7blat\x7d,\x7blon\x7d,\x7bw.get('dt')\x7d"`. -/
def pyStr : PyVal → String
  | .none => "None"
  | .bool true => "True"
  | .bool false => "False"
  | .num t => t
  | .str s => s
  | .list xs => "[" ++ String.intercalate ", " (pyReprList xs) ++ "]"
  | .dict kvs => "\x7b" ++ String.intercalate ", " (pyReprPairs kvs) ++ "\x7d"

/-- Python `repr()` (differs from `str` only on strings). -/
def pyRepr : PyVal → String
  | .str s => String.mk [Char.ofNat 39] ++ s ++ String.mk [Char.ofNat 39]
  | v => pyStr v

def pyReprList : List PyVal → List String
  | [] => []
  | v :: vs => pyRepr v :: pyReprList vs

def pyReprPairs : List (String × PyVal) → List String
  | [] => []
  | (k, v) :: kvs => (pyRepr (.str k) ++ ": " ++ pyRepr v) :: pyReprPairs kvs

end

/-! ### SHA-1 (`hashlib.sha1(...).hexdigest()`)

Implemented over `Nat` with explicit reduction mod `2 ^ 32`. -/

/-- UTF-8 encoding of one character (`str.encode()`). -/
def utf8Bytes (c : Char) : List Nat :=
  let n := c.toNat
  if n < 128 then [n]
  else if n < 2048 then [192 + n / 64, 128 + n % 64]
  else if n < 65536 then [224 + n / 4096, 128 + n / 64 % 64, 128 + n % 64]
  else [240 + n / 262144, 128 + n / 4096 % 64, 128 + n / 64 % 64, 128 + n % 64]

/-- UTF-8 bytes of a string. -/
def strBytes (s : String) : List Nat :=
  s.toList.flatMap utf8Bytes

/-- Left-rotation of a 32-bit word by `k` (the high and low parts are
disjoint, so addition is the bitwise or). -/
def rotl (k x : Nat) : Nat :=
  (x * 2 ^ k) % 4294967296 + x / 2 ^ (32 - k)

/-- Bitwise complement on 32-bit words. -/
def bnot32 (x : Nat) : Nat :=
  x.xor 4294967295

/-- Big-endian bytes of `n`, `k` bytes wide. -/
def beBytes (k n : Nat) : List Nat :=
  (List.range k).map (fun i => n / 2 ^ (8 * (k - 1 - i)) % 256)

/-- SHA-1 message padding: `0x80`, zeros to 56 mod 64, then the 8-byte
big-endian bit length. -/
def sha1Pad (msg : List Nat) : List Nat :=
  let padLen := (120 - (msg.length + 1) % 64) % 64
  msg ++ [128] ++ List.replicate padLen 0 ++ beBytes 8 (msg.length * 8)

/-- Split a byte list into 64-byte blocks. -/
def chunk64 (l : List Nat) : List (List Nat) :=
  if h : l = [] then []
  else l.take 64 :: chunk64 (l.drop 64)
termination_by l.length
decreasing_by
  have hl : l.length ≠ 0 := by simpa [List.length_eq_zero] using h
  simp only [List.length_drop]
  omega

/-- The sixteen 32-bit big-endian words of one 64-byte block. -/
def blockWords (b : List Nat) : List Nat :=
  (List.range 16).map (fun i =>
    b.getD (4 * i) 0 * 16777216 + b.getD (4 * i + 1) 0 * 65536 +
      b.getD (4 * i + 2) 0 * 256 + b.getD (4 * i + 3) 0)

/-- Message-schedule extension, building the word list newest-first. -/
def sha1Extend : Nat → List Nat → List Nat
  | 0, acc => acc
  | k + 1, acc =>
    sha1Extend k
      (rotl 1 (((acc.getD 2 0).xor (acc.getD 7 0)).xor
        ((acc.getD 13 0).xor (acc.getD 15 0))) :: acc)

/-- The 80 schedule words of a block. -/
def sha1Words (b : List Nat) : List Nat :=
  (sha1Extend 64 (blockWords b).reverse).reverse

/-- The 80 compression rounds. -/
def sha1Rounds : List Nat → Nat → Nat × Nat × Nat × Nat × Nat →
    Nat × Nat × Nat × Nat × Nat
  | [], _, st => st
  | w :: ws, i, (a, b, c, d, e) =>
    let fk : Nat × Nat :=
      if i < 20 then ((b.land c).lor ((bnot32 b).land d), 1518500249)
      else if i < 40 then ((b.xor c).xor d, 1859775393)
      else if i < 60 then
        (((b.land c).lor (b.land d)).lor (c.land d), 2400959708)
      else ((b.xor c).xor d, 3395469782)
    sha1Rounds ws (i + 1)
      ((rotl 5 a + fk.1 + e + fk.2 + w) % 4294967296, a, rotl 30 b, c, d)

/-- Process one 64-byte block into the running hash state. -/
def sha1Block (st : Nat × Nat × Nat × Nat × Nat) (b : List Nat) :
    Nat × Nat × Nat × Nat × Nat :=
  let (h0, h1, h2, h3, h4) := st
  let (a, b', c, d, e) := sha1Rounds (sha1Words b) 0 (h0, h1, h2, h3, h4)
  ((h0 + a) % 4294967296, (h1 + b') % 4294967296, (h2 + c) % 4294967296,
    (h3 + d) % 4294967296, (h4 + e) % 4294967296)

/-- Lowercase hexadecimal digit. -/
def hexDigit (n : Nat) : Char :=
  if n < 10 then Char.ofNat (48 + n) else Char.ofNat (87 + n % 16)

/-- Eight lowercase hex digits of a 32-bit word. -/
def hexWord (w : Nat) : List Char :=
  (List.range 8).map (fun i => hexDigit (w / 16 ^ (7 - i) % 16))

/-- `hashlib.sha1(s.encode()).hexdigest()`: the 40-character lowercase
hex digest of the UTF-8 bytes of `s`. -/
def sha1Hex (s : String) : String :=
  let init : Nat × Nat × Nat × Nat × Nat :=
    (1732584193, 4023233417, 2562383102, 271733878, 3285377520)
  let (h0, h1, h2, h3, h4) :=
    (chunk64 (sha1Pad (strBytes s))).foldl sha1Block init
  String.mk (hexWord h0 ++ hexWord h1 ++ hexWord h2 ++ hexWord h3 ++ hexWord h4)

/-! ### Source Adapter — `fetch_weather` -/

/-- A configured coordinate `\x7b"name": ..., "lat": ..., "lon": ...\x7d`.
`name` models `c.get("name")` (so `PyVal.none` when absent). -/
structure Coord where
  name : PyVal
  lat : PyVal
  lon : PyVal

/-- A provider response: HTTP status plus the parsed JSON body
(`r.json()`). -/
structure HttpResp where
  status : Nat
  body : PyVal

/-- Failure of the fetch stage: the provider returned an HTTP error status
for a coordinate (`r.raise_for_status()`), or the response body rejected
the `_meta` item assignment (`data["_meta"] = ...` on a non-dict). -/
inductive FetchErr where
  | providerError : Coord → Nat → FetchErr
  | typeError : FetchErr

/-- Result of one fetch invocation: the requests issued in order, the
number of fixed `time.sleep(0.2)` delays performed, and the outcome. -/
structure FetchOut where
  issued : List Coord
  sleeps : Nat
  result : Except FetchErr (List PyVal)

/-- The `_meta` annotation attached to each successful response. -/
def metaDict (c : Coord) : PyVal :=
  .dict [("requested_name", c.name), ("requested_lat", c.lat),
    ("requested_lon", c.lon)]

/-- `requests.Response.raise_for_status()` raises exactly for 4xx/5xx. -/
def isErrorStatus (s : Nat) : Bool :=
  400 ≤ s && s < 600

/-- The loop body of `fetch_weather`: for each coordinate issue one request,
raise on an error status, annotate the body with `_meta`, sleep the fixed
delay, and continue.  The provider is passed as a function from the
requested coordinate to its HTTP response. -/
def fetch_weather (provider : Coord → HttpResp) : List Coord → FetchOut
  | [] => ⟨[], 0, .ok []⟩
  | c :: rest =>
    let r := provider c
    if isErrorStatus r.status then
      ⟨[c], 0, .error (.providerError c r.status)⟩
    else
      match pySetItem r.body "_meta" (metaDict c) with
      | .error _ => ⟨[c], 0, .error .typeError⟩
      | .ok data =>
        let out := fetch_weather provider rest
        ⟨c :: out.issued, 1 + out.sleeps, out.result.map (fun l => data :: l)⟩

/-! ### Record Transformer — `transform_weather` -/

/-- One iteration of the `transform_weather` loop: build the normalized
record dict for one raw observation `w`, with `ts` the
`datetime.now(timezone.utc).isoformat()` stamp taken once per call. -/
def transform_one (ts : String) (w : PyVal) : Except PyErr PyVal := do
  let main ← pyGetD w "main" (.dict [])
  let wind ← pyGetD w "wind" (.dict [])
  let sysv ← pyGetD w "sys" (.dict [])
  let metav ← pyGet w "_meta"
  let reqName ← pyGet (pyOr metav (.dict [])) "requested_name"
  let name ← if truthy reqName then pure reqName else pyGet w "name"
  let coord1 ← pyGet w "coord"
  let lat ← pyGet (pyOr coord1 (.dict [])) "lat"
  let coord2 ← pyGet w "coord"
  let lon ← pyGet (pyOr coord2 (.dict [])) "lon"
  let dtv ← pyGet w "dt"
  let idv := (sha1Hex (pyStr lat ++ "," ++ pyStr lon ++ "," ++ pyStr dtv)).take 16
  let temp ← pyGet main "temp"
  let feels ← pyGet main "feels_like"
  let humidity ← pyGet main "humidity"
  let pressure ← pyGet main "pressure"
  let windSpeed ← pyGet wind "speed"
  let windDeg ← pyGet wind "deg"
  let weatherv ← pyGet w "weather"
  let w0 ← pyIndex0 (pyOr weatherv (.list [.dict []]))
  let desc ← pyGet w0 "description"
  let sunrise ← pyGet sysv "sunrise"
  let sunset ← pyGet sysv "sunset"
  pure (.dict [("id", .str idv), ("collected_at", .str ts),
    ("location_name", name), ("lat", lat), ("lon", lon), ("temp", temp),
    ("feels_like", feels), ("humidity", humidity), ("pressure", pressure),
    ("wind_speed", windSpeed), ("wind_deg", windDeg), ("weather", desc),
    ("sunrise", sunrise), ("sunset", sunset),
    ("source", .str "openweathermap_current")])

/-- `transform_weather`: map `transform_one` over the raw observations,
stopping at the first raised error. -/
def transform_weather (ts : String) (raw : List PyVal) :
    Except PyErr (List PyVal) :=
  raw.mapM (transform_one ts)

/-! ### JSON serialization — `json.dumps(p, separators=(",", ":"), sort_keys=True)` -/

/-- Four lowercase hex digits (for a `\u` escape). -/
def hex4 (n : Nat) : List Char :=
  [hexDigit (n / 4096 % 16), hexDigit (n / 256 % 16), hexDigit (n / 16 % 16),
    hexDigit (n % 16)]

/-- A `\uXXXX` escape sequence. -/
def uEsc (n : Nat) : List Char :=
  '\\' :: 'u' :: hex4 n

/-- `json.dumps` escaping of one string character (`ensure_ascii` default:
everything outside printable ASCII becomes a `\u` escape, astral characters
become a surrogate pair). -/
def escChar (c : Char) : List Char :=
  if c = '"' then ['\\', '"']
  else if c = '\\' then ['\\', '\\']
  else if c = '\n' then ['\\', 'n']
  else if c = '\r' then ['\\', 'r']
  else if c = '\t' then ['\\', 't']
  else if c.toNat = 8 then ['\\', 'b']
  else if c.toNat = 12 then ['\\', 'f']
  else if c.toNat < 32 then uEsc c.toNat
  else if c.toNat ≤ 126 then [c]
  else if c.toNat < 65536 then uEsc c.toNat
  else
    uEsc (55296 + (c.toNat - 65536) / 1024) ++
      uEsc (56320 + (c.toNat - 65536) % 1024)

/-- The characters of the JSON rendering of a string. -/
def dumpStrChars (s : String) : List Char :=
  '"' :: s.toList.flatMap escChar ++ ['"']

/-- Key order used by `sort_keys=True`: stable sort of the members by key. -/
def sortPairs (kvs : List (String × PyVal)) : List (String × PyVal) :=
  kvs.insertionSort (fun a b => a.1 ≤ b.1)

theorem sizeOf_of_perm {α : Type} [SizeOf α] {l₁ l₂ : List α}
    (h : List.Perm l₁ l₂) : sizeOf l₁ = sizeOf l₂ := by
  induction h with
  | nil => rfl
  | cons x _ ih => simp only [List.cons.sizeOf_spec, ih]
  | swap x y l => simp only [List.cons.sizeOf_spec]; omega
  | trans _ _ ih₁ ih₂ => exact ih₁.trans ih₂

theorem sizeOf_sortPairs (kvs : List (String × PyVal)) :
    sizeOf (sortPairs kvs) = sizeOf kvs := by
  unfold sortPairs
  exact sizeOf_of_perm (List.perm_insertionSort _ kvs)

/-- `sep.join(pieces)` at the character level. -/
def joinSep (sep : Char) : List (List Char) → List Char
  | [] => []
  | [l] => l
  | l :: ls => l ++ sep :: joinSep sep ls

/-- Comma-join of rendered pieces (compact separators). -/
def joinComma (ls : List (List Char)) : List Char :=
  joinSep ',' ls

/-- The rendered `null` literal. -/
@[simp] def nullChars : List Char := ['n', 'u', 'l', 'l']

/-- The rendered `true` literal. -/
@[simp] def trueChars : List Char := ['t', 'r', 'u', 'e']

/-- The rendered `false` literal. -/
@[simp] def falseChars : List Char := ['f', 'a', 'l', 's', 'e']

mutual

/-- Characters of `json.dumps(v, separators=(",", ":"), sort_keys=True)`. -/
def dumpChars : PyVal → List Char
  | .none => nullChars
  | .bool true => trueChars
  | .bool false => falseChars
  | .num t => t.toList
  | .str s => dumpStrChars s
  | .list xs => '[' :: joinComma (dumpElems xs) ++ [']']
  | .dict kvs => '\x7b' :: joinComma (dumpMembers (sortPairs kvs)) ++ ['\x7d']
termination_by v => sizeOf v
decreasing_by
  all_goals simp_wf
  all_goals simp [sizeOf_sortPairs]

def dumpElems : List PyVal → List (List Char)
  | [] => []
  | v :: vs => dumpChars v :: dumpElems vs
termination_by l => sizeOf l
decreasing_by
  all_goals simp_wf
  all_goals omega

def dumpMembers : List (String × PyVal) → List (List Char)
  | [] => []
  | (k, v) :: kvs => (dumpStrChars k ++ ':' :: dumpChars v) :: dumpMembers kvs
termination_by l => sizeOf l
decreasing_by
  all_goals simp_wf
  all_goals omega

end

/-- `json.dumps(v, separators=(",", ":"), sort_keys=True)` as a string. -/
def dumps (v : PyVal) : String :=
  String.mk (dumpChars v)

/-! ### Batch Publisher — `upload_to_s3` -/

/-- The object store: keys mapped to object bodies. -/
abbrev S3State := List (String × String)

/-- `s3.put_object`: replace any existing object at the key, else add it. -/
def s3Put (store : S3State) (k body : String) : S3State :=
  store.filter (fun e => e.1 ≠ k) ++ [(k, body)]

/-- UTC wall-clock instant at publish time (`datetime.utcnow()`). -/
structure UTCNow where
  year : Nat
  month : Nat
  day : Nat
  hour : Nat
  minute : Nat
  second : Nat

/-- Zero-padded decimal rendering, `w` digits wide minimum. -/
def padNum (w n : Nat) : String :=
  let s := toString n
  String.mk (List.replicate (w - s.length) '0') ++ s

/-- The object key `f"\x7bprefix\x7d\x7bnow:%Y/%m/%d\x7d/\x7bnow:%H%M%S\x7d.jsonl"`. -/
def batchKey (pfx : String) (now : UTCNow) : String :=
  pfx ++ padNum 4 now.year ++ "/" ++ padNum 2 now.month ++ "/" ++
    padNum 2 now.day ++ "/" ++ padNum 2 now.hour ++ padNum 2 now.minute ++
    padNum 2 now.second ++ ".jsonl"

/-- The newline-joined body `"\n".join(json.dumps(p, ...) for p in products)`. -/
def batchBody (products : List PyVal) : String :=
  String.mk (joinSep '\n' (products.map dumpChars))

/-- What one `upload_to_s3` call did: the `put_object` calls it performed
(key and body) and its return value. -/
structure UploadOut where
  puts : List (String × String)
  ret : String

/-- `upload_to_s3`: nothing for an empty batch, else a single put of the
serialized batch under the time-partitioned key, returning the location. -/
def upload_to_s3 (bucket pfx : String) (now : UTCNow)
    (products : List PyVal) : UploadOut :=
  if products.isEmpty then ⟨[], ""⟩
  else
    let key := batchKey pfx now
    ⟨[(key, batchBody products)], "s3://" ++ bucket ++ "/" ++ key⟩

/-- Apply an upload's puts to the store. -/
def applyPuts (store : S3State) (puts : List (String × String)) : S3State :=
  puts.foldl (fun st e => s3Put st e.1 e.2) store

/-! ### Pipeline orchestration — `weather_product_job` -/

/-- Job-level failure: which stage raised. -/
inductive JobErr where
  | fetch : FetchErr → JobErr
  | transform : PyErr → JobErr

/-- One invocation of `weather_product_job`:
`upload_to_s3(transform_weather(fetch_weather()))` over an explicit store,
returning the new store and the job outcome. -/
def weather_product_job (provider : Coord → HttpResp) (coords : List Coord)
    (ts : String) (bucket pfx : String) (now : UTCNow) (store : S3State) :
    S3State × Except JobErr String :=
  match (fetch_weather provider coords).result with
  | .error e => (store, .error (.fetch e))
  | .ok raw =>
    match transform_weather ts raw with
    | .error e => (store, .error (.transform e))
    | .ok products =>
      let out := upload_to_s3 bucket pfx now products
      (applyPuts store out.puts, .ok out.ret)

/-! ### JSON parsing — `json.loads` on the read path -/

/-- JSON whitespace. -/
def isJsonWs (c : Char) : Bool :=
  c = ' ' || c = '\t' || c = '\n' || c = '\r'

/-- Skip JSON whitespace. -/
def skipWs (l : List Char) : List Char :=
  l.dropWhile isJsonWs

/-- Value of one hex digit. -/
def hexVal (c : Char) : Option Nat :=
  if 48 ≤ c.toNat && c.toNat ≤ 57 then some (c.toNat - 48)
  else if 97 ≤ c.toNat && c.toNat ≤ 102 then some (c.toNat - 87)
  else if 65 ≤ c.toNat && c.toNat ≤ 70 then some (c.toNat - 55)
  else Option.none

/-- Value of a 4-hex-digit `\u` escape. -/
def hex4Val (a b c d : Char) : Option Nat := do
  let x ← hexVal a
  let y ← hexVal b
  let z ← hexVal c
  let w ← hexVal d
  pure (4096 * x + 256 * y + 16 * z + w)

/-- Prepend a decoded character to a string-parse result. -/
def strCons (c : Char) (r : Option (List Char × List Char)) :
    Option (List Char × List Char) :=
  r.map (fun p => (c :: p.1, p.2))

/-- Decode the tail of a `\uXXXX` escape whose leading hex value is `n`:
either a lone BMP character or a surrogate pair to recombine.  A lone
surrogate decodes through `Char.ofNat` (such input is never produced by
`dumps`). -/
def decodeU (rest2 : List Char) (n : Nat) : Option (Char × List Char) :=
  if 55296 ≤ n && n < 56320 then
    match rest2 with
    | x1 :: x2 :: a2 :: b2 :: c2 :: d2 :: rest3 =>
      if x1 = '\\' && x2 = 'u' then
        match hex4Val a2 b2 c2 d2 with
        | Option.none => Option.none
        | some m =>
          if 56320 ≤ m && m < 57344 then
            some (Char.ofNat (65536 + (n - 55296) * 1024 + (m - 56320)), rest3)
          else Option.none
      else Option.none
    | _ => Option.none
  else some (Char.ofNat n, rest2)

/-- Decode one backslash escape (the input starts after the backslash),
returning the decoded character and the remaining input. -/
def decodeEsc : List Char → Option (Char × List Char)
  | [] => Option.none
  | e :: rest =>
    if e = '"' then some ('"', rest)
    else if e = '\\' then some ('\\', rest)
    else if e = '/' then some ('/', rest)
    else if e = 'b' then some (Char.ofNat 8, rest)
    else if e = 'f' then some (Char.ofNat 12, rest)
    else if e = 'n' then some ('\n', rest)
    else if e = 'r' then some ('\r', rest)
    else if e = 't' then some ('\t', rest)
    else if e = 'u' then
      match rest with
      | a :: b :: c :: d :: rest2 =>
        match hex4Val a b c d with
        | Option.none => Option.none
        | some n => decodeU rest2 n
      | _ => Option.none
    else Option.none

theorem decodeU_length {l : List Char} {n : Nat} {d : Char} {r : List Char}
    (h : decodeU l n = some (d, r)) : r.length ≤ l.length := by
  unfold decodeU at h
  split at h
  · split at h
    · split at h
      · split at h
        · contradiction
        · split at h
          · rw [← ((Prod.mk.injEq _ _ _ _).mp (Option.some.inj h)).2]
            simp
            omega
          · contradiction
      · contradiction
    · contradiction
  · rw [← ((Prod.mk.injEq _ _ _ _).mp (Option.some.inj h)).2]

theorem decodeEsc_length {l : List Char} {d : Char} {r : List Char}
    (h : decodeEsc l = some (d, r)) : r.length < l.length := by
  cases l with
  | nil => simp [decodeEsc] at h
  | cons e rest =>
    simp only [decodeEsc] at h
    split_ifs at h with h1 h2 h3 h4 h5 h6 h7 h8 h9
    any_goals (cases h; try simp)
    · split at h
      · split at h
        · cases h
        · have hle := decodeU_length h
          simp only [List.length_cons] at hle ⊢
          omega
      · cases h

/-- Parse a JSON string body after the opening quote, returning the decoded
characters and the input after the closing quote. -/
def parseStrBody (l : List Char) : Option (List Char × List Char) :=
  match l with
  | [] => Option.none
  | c :: rest =>
    if c = '"' then some ([], rest)
    else if c = '\\' then
      match h : decodeEsc rest with
      | Option.none => Option.none
      | some dr => strCons dr.1 (parseStrBody dr.2)
    else strCons c (parseStrBody rest)
termination_by l.length
decreasing_by
  · exact Nat.lt_succ_of_lt (decodeEsc_length h)
  · simp

/-- Characters that may continue a JSON number token. -/
def isNumChar (c : Char) : Bool :=
  c.isDigit || c = '-' || c = '+' || c = '.' || c = 'e' || c = 'E'

/-- Characters that may start a JSON number token. -/
def isNumStart (c : Char) : Bool :=
  c.isDigit || c = '-'

/-- Match a literal keyword tail (after its already-consumed head). -/
def expectLit (lit : List Char) (v : PyVal) (l : List Char) :
    Option (PyVal × List Char) :=
  if l.take lit.length = lit then some (v, l.drop lit.length) else Option.none

mutual

/-- Recursive-descent JSON value parser (`json.loads` core), with a fuel
argument for termination; every level of nesting consumes fuel. -/
def parseVal : Nat → List Char → Option (PyVal × List Char)
  | 0, _ => Option.none
  | fuel + 1, l =>
    match skipWs l with
    | [] => Option.none
    | c :: rest =>
      if c = '"' then
        (parseStrBody rest).map (fun p => (PyVal.str (String.mk p.1), p.2))
      else if c = '\x7b' then
        match skipWs rest with
        | [] => Option.none
        | d :: rest2 =>
          if d = '\x7d' then some (PyVal.dict [], rest2)
          else
            (parseMembers fuel (d :: rest2)).map
              (fun p => (PyVal.dict p.1, p.2))
      else if c = '[' then
        match skipWs rest with
        | [] => Option.none
        | d :: rest2 =>
          if d = ']' then some (PyVal.list [], rest2)
          else
            (parseElems fuel (d :: rest2)).map (fun p => (PyVal.list p.1, p.2))
      else if c = 'n' then expectLit ['u', 'l', 'l'] PyVal.none rest
      else if c = 't' then expectLit ['r', 'u', 'e'] (PyVal.bool true) rest
      else if c = 'f' then expectLit ['a', 'l', 's', 'e'] (PyVal.bool false) rest
      else if isNumStart c then
        some (PyVal.num (String.mk ((c :: rest).takeWhile isNumChar)),
          (c :: rest).dropWhile isNumChar)
      else Option.none

/-- Parse the members of a nonempty JSON object up to and including the
closing brace. -/
def parseMembers : Nat → List Char → Option (List (String × PyVal) × List Char)
  | 0, _ => Option.none
  | fuel + 1, l =>
    match skipWs l with
    | [] => Option.none
    | c :: r =>
      if c = '"' then
        match parseStrBody r with
        | Option.none => Option.none
        | some (kcs, r1) =>
          match skipWs r1 with
          | [] => Option.none
          | x :: r2 =>
            if x = ':' then
              match parseVal fuel r2 with
              | Option.none => Option.none
              | some (v, r3) =>
                match skipWs r3 with
                | [] => Option.none
                | y :: r4 =>
                  if y = ',' then
                    (parseMembers fuel r4).map
                      (fun p => ((String.mk kcs, v) :: p.1, p.2))
                  else if y = '\x7d' then some ([(String.mk kcs, v)], r4)
                  else Option.none
            else Option.none
      else Option.none

/-- Parse the elements of a nonempty JSON array up to and including the
closing bracket. -/
def parseElems : Nat → List Char → Option (List PyVal × List Char)
  | 0, _ => Option.none
  | fuel + 1, l =>
    match parseVal fuel l with
    | Option.none => Option.none
    | some (v, rest) =>
      match skipWs rest with
      | [] => Option.none
      | y :: rest2 =>
        if y = ',' then (parseElems fuel rest2).map (fun p => (v :: p.1, p.2))
        else if y = ']' then some ([v], rest2)
        else Option.none

end

/-- `json.loads(s)`: parse one JSON document, allowing surrounding
whitespace, requiring the whole input to be consumed. -/
def loads (s : String) : Option PyVal :=
  match parseVal (s.length + 1) s.toList with
  | some (v, rest) => if skipWs rest = [] then some v else Option.none
  | Option.none => Option.none

/-! ### Listing/Aggregation endpoint — `list_products` -/

/-- Python `str.splitlines` on newline-only text, at the character level:
split on every newline, with no empty trailing piece. -/
def splitNL : List Char → List (List Char)
  | [] => [[]]
  | c :: r =>
    if c = '\n' then [] :: splitNL r
    else
      match splitNL r with
      | [] => [[c]]
      | h :: t => (c :: h) :: t

/-- `body.splitlines()` (bodies here contain no exotic line separators:
`dumps` escapes every control character). -/
def pySplitlines (s : String) : List String :=
  let parts := splitNL s.toList
  (if parts.getLast? = some [] then parts.dropLast else parts).map String.mk

/-- Python whitespace for `str.strip()`. -/
def pyIsSpace (c : Char) : Bool :=
  c = ' ' || c = '\t' || c = '\n' || c = '\r' || c.toNat = 11 || c.toNat = 12

/-- `bool(line.strip())`: the line has a non-whitespace character. -/
def stripNonempty (line : String) : Bool :=
  line.toList.any (fun c => !pyIsSpace c)

/-- Python `s.startswith(pre)`. -/
def pyStartsWith (s pre : String) : Bool :=
  pre.toList.isPrefixOf s.toList

/-- Python `s.endswith(suf)`. -/
def pyEndsWith (s suf : String) : Bool :=
  suf.toList.isSuffixOf s.toList

/-- The keys the endpoint selects from: objects under the configured
prefix (the `list_objects_v2` `Prefix=` filter) with the `.jsonl` suffix,
sorted lexically ascending (`sorted(...)`). -/
def sortedJsonlKeys (store : S3State) (pfx : String) : List String :=
  ((store.map Prod.fst).filter
    (fun k => pyStartsWith k pfx && pyEndsWith k ".jsonl")).insertionSort
    (fun a b => a ≤ b)

/-- The Python slice `xs[i:]`. -/
def pySliceFrom (xs : List String) (i : Int) : List String :=
  if i < 0 then xs.drop (xs.length - (-i).toNat)
  else xs.drop (min xs.length i.toNat)

/-- Read-path failure: a storage/client error (surfaced as HTTP 500) or a
malformed stored line (`json.loads` raising). -/
inductive ApiErr where
  | clientError : String → ApiErr
  | jsonDecodeError : ApiErr
deriving DecidableEq, Repr

/-- The loop body over one object's lines: skip blank lines, parse each
remaining line with `json.loads` (a failure raises), append to `items`. -/
def parseLineStep (acc : List PyVal) (line : String) :
    Except ApiErr (List PyVal) :=
  if stripNonempty line then
    match loads line with
    | some v => .ok (acc ++ [v])
    | Option.none => .error .jsonDecodeError
  else .ok acc

/-- The loop body over selected keys: `get_object` (a missing key is a
`ClientError`, surfaced as HTTP 500), then fold the body's lines. -/
def readKeyStep (store : S3State) (items : List PyVal) (k : String) :
    Except ApiErr (List PyVal) :=
  match (store.find? (fun e => e.1 == k)).map (fun e => e.2) with
  | Option.none => .error (.clientError "NoSuchKey")
  | some body => (pySplitlines body).foldlM parseLineStep items

/-- `GET /products?limit=N`: list keys under the prefix, filter to
`.jsonl`, sort, take `keys[-limit:]`, then concatenate the parsed
non-blank lines of each selected object. -/
def list_products (store : S3State) (pfx : String) (limit : Int) :
    Except ApiErr (List PyVal) :=
  let keys := sortedJsonlKeys store pfx
  if keys.isEmpty then .ok []
  else (pySliceFrom keys (-limit)).foldlM (readKeyStep store) []

/-- The canonical (sorted-key) form of a flat record dict: what a published
record reads back as.  Python dict equality is insertion-order-insensitive,
so this is `==`-equal to the original record in Python. -/
def canonFlat : PyVal → PyVal
  | .dict kvs => .dict (sortPairs kvs)
  | v => v

/-! ### Cleanliness: the values a NormalizedRecord's fields range over -/

/-- Printable-ASCII character: serialized by `escChar` either literally or
as a two-character backslash escape. -/
def safeChar (c : Char) : Bool :=
  32 ≤ c.toNat && c.toNat ≤ 126

/-- A string of printable ASCII. -/
def safeStr (s : String) : Bool :=
  s.toList.all safeChar

/-- A well-formed JSON number literal token. -/
def numTok (t : String) : Bool :=
  match t.toList with
  | [] => false
  | c :: _ => isNumStart c && t.toList.all isNumChar

/-- A scalar field value of a normalized record: `None`, a boolean, a
number token, or a printable-ASCII string. -/
def cleanScalar : PyVal → Bool
  | .none => true
  | .bool _ => true
  | .num t => numTok t
  | .str s => safeStr s
  | _ => false

/-- Duplicate-free key list (association lists standing for Python dicts
never have duplicate keys). -/
def nodupKeys : List (String × PyVal) → Bool
  | [] => true
  | (k, _) :: kvs => kvs.all (fun e => e.1 != k) && nodupKeys kvs

/-- A normalized record as stored: a nonempty flat dict with
printable-ASCII keys, scalar clean values, and no duplicate keys. -/
def cleanRecord : PyVal → Bool
  | .dict kvs =>
    !kvs.isEmpty && kvs.all (fun e => safeStr e.1 && cleanScalar e.2) &&
      nodupKeys kvs
  | _ => false

/-- A publishable batch: a nonempty list of clean records. -/
def cleanBatch (products : List PyVal) : Bool :=
  !products.isEmpty && products.all cleanRecord

/-! ### Parse/serialize inverse lemmas -/

theorem safeChar_val {c : Char} (h : safeChar c = true) :
    32 ≤ c.toNat ∧ c.toNat ≤ 126 := by
  simpa [safeChar] using h

theorem escChar_lit {c : Char} (h : safeChar c = true) (h1 : c ≠ '"')
    (h2 : c ≠ '\\') : escChar c = [c] := by
  obtain ⟨hl, hr⟩ := safeChar_val h
  have h3 : c ≠ '\n' := by intro e; subst e; exact absurd hl (by decide)
  have h4 : c ≠ '\r' := by intro e; subst e; exact absurd hl (by decide)
  have h5 : c ≠ '\t' := by intro e; subst e; exact absurd hl (by decide)
  have h6 : ¬ c.toNat = 8 := by omega
  have h7 : ¬ c.toNat = 12 := by omega
  have h8 : ¬ c.toNat < 32 := by omega
  unfold escChar
  rw [if_neg h1, if_neg h2, if_neg h3, if_neg h4, if_neg h5, if_neg h6,
    if_neg h7, if_neg h8, if_pos hr]

theorem strCons_some (c : Char) (cs rest : List Char) :
    strCons c (some (cs, rest)) = some (c :: cs, rest) := rfl

theorem parseStrBody_dump (cs : List Char) (h : ∀ c ∈ cs, safeChar c = true)
    (rest : List Char) :
    parseStrBody (cs.flatMap escChar ++ '"' :: rest) = some (cs, rest) := by
  induction cs with
  | nil => simp [parseStrBody]
  | cons c cs ih =>
    have hc : safeChar c = true := h c (by simp)
    have hcs : ∀ x ∈ cs, safeChar x = true := fun x hx => h x (by simp [hx])
    by_cases h1 : c = '"'
    · subst h1
      rw [List.flatMap_cons, show escChar '"' = ['\\', '"'] from by decide]
      simp only [List.cons_append, List.nil_append]
      rw [show ∀ l, parseStrBody ('\\' :: '"' :: l) =
        strCons '"' (parseStrBody l) from fun l => by
          simp [parseStrBody, decodeEsc]]
      rw [ih hcs, strCons_some]
    · by_cases h2 : c = '\\'
      · subst h2
        rw [List.flatMap_cons, show escChar '\\' = ['\\', '\\'] from by decide]
        simp only [List.cons_append, List.nil_append]
        rw [show ∀ l, parseStrBody ('\\' :: '\\' :: l) =
          strCons '\\' (parseStrBody l) from fun l => by
            simp [parseStrBody, decodeEsc]]
        rw [ih hcs, strCons_some]
      · rw [List.flatMap_cons, escChar_lit hc h1 h2]
        simp only [List.cons_append, List.nil_append]
        rw [show parseStrBody (c :: (cs.flatMap escChar ++ '"' :: rest)) =
          strCons c (parseStrBody (cs.flatMap escChar ++ '"' :: rest)) from by
            simp [parseStrBody, h1, h2]]
        rw [ih hcs, strCons_some]

theorem takeWhile_append_tok {p : Char → Bool} (tok rest : List Char)
    (h1 : ∀ c ∈ tok, p c = true) (h2 : ∀ c ∈ rest.take 1, p c = false) :
    (tok ++ rest).takeWhile p = tok ∧ (tok ++ rest).dropWhile p = rest := by
  induction tok with
  | nil =>
    simp only [List.nil_append]
    cases rest with
    | nil => simp
    | cons c r => simp [List.takeWhile_cons, List.dropWhile_cons, h2 c (by simp)]
  | cons c t ih =>
    have hc : p c = true := h1 c (by simp)
    have ht : ∀ x ∈ t, p x = true := fun x hx => h1 x (by simp [hx])
    obtain ⟨e1, e2⟩ := ih ht
    simp [List.takeWhile_cons, List.dropWhile_cons, hc, e1, e2]

theorem isNumStart_facts {c : Char} (h : isNumStart c = true) :
    (48 ≤ c.toNat ∧ c.toNat ≤ 57) ∨ c.toNat = 45 := by
  simp [isNumStart, Char.isDigit] at h
  rcases h with h | h
  · exact Or.inl ⟨h.1, h.2⟩
  · subst h
    exact Or.inr rfl

theorem isNumStart_not_ws {c : Char} (h : isNumStart c = true) :
    isJsonWs c = false := by
  have hf := isNumStart_facts h
  cases hw : isJsonWs c
  · rfl
  · exfalso
    simp [isJsonWs] at hw
    rcases hw with ((e | e) | e) | e <;> subst e <;> revert hf <;> decide

theorem isNumStart_ne {c : Char} (h : isNumStart c = true) :
    c ≠ '"' ∧ c ≠ '\x7b' ∧ c ≠ '[' ∧ c ≠ 'n' ∧ c ≠ 't' ∧ c ≠ 'f' := by
  have hf := isNumStart_facts h
  refine ⟨?_, ?_, ?_, ?_, ?_, ?_⟩ <;> (intro e; subst e; revert hf; decide)

theorem skipWs_cons_not {c : Char} (l : List Char) (h : isJsonWs c = false) :
    skipWs (c :: l) = c :: l := by
  simp [skipWs, List.dropWhile_cons, h]

theorem numTok_facts {t : String} (h : numTok t = true) :
    ∃ c cs, t.toList = c :: cs ∧ isNumStart c = true ∧
      ∀ x ∈ t.toList, isNumChar x = true := by
  unfold numTok at h
  rcases ht : t.toList with _ | ⟨c, cs⟩
  · rw [ht] at h
    simp at h
  · rw [ht] at h
    simp only [Bool.and_eq_true, List.all_eq_true] at h
    exact ⟨c, cs, rfl, h.1, fun x hx => h.2 x hx⟩

theorem parseVal_scalar (v : PyVal) (hv : cleanScalar v = true) (fuel : Nat)
    (rest : List Char) (hrest : ∀ c ∈ rest.take 1, isNumChar c = false) :
    parseVal (fuel + 1) (dumpChars v ++ rest) = some (v, rest) := by
  cases v with
  | none =>
    simp [dumpChars, parseVal, skipWs, List.dropWhile_cons, isJsonWs, expectLit]
  | bool b =>
    cases b <;>
      simp [dumpChars, parseVal, skipWs, List.dropWhile_cons, isJsonWs, expectLit]
  | str s =>
    have hsafe : ∀ c ∈ s.toList, safeChar c = true := by
      have := hv
      simp only [cleanScalar, safeStr, List.all_eq_true] at this
      exact fun c hc => this c hc
    simp only [dumpChars, dumpStrChars, List.cons_append, List.append_assoc,
      List.singleton_append, List.nil_append]
    rw [show parseVal (fuel + 1) ('"' :: (s.toList.flatMap escChar ++ '"' :: rest)) =
      (parseStrBody (s.toList.flatMap escChar ++ '"' :: rest)).map
        (fun p => (PyVal.str (String.mk p.1), p.2)) from by
        simp [parseVal, skipWs, List.dropWhile_cons, isJsonWs]]
    rw [parseStrBody_dump s.toList hsafe rest]
    rfl
  | num t =>
    have ht : numTok t = true := by simpa [cleanScalar] using hv
    obtain ⟨c, cs, hlist, hstart, hall⟩ := numTok_facts ht
    obtain ⟨hne1, hne2, hne3, hne4, hne5, hne6⟩ := isNumStart_ne hstart
    simp only [dumpChars, hlist, List.cons_append]
    rw [show parseVal (fuel + 1) (c :: (cs ++ rest)) =
      some (PyVal.num (String.mk ((c :: (cs ++ rest)).takeWhile isNumChar)),
        (c :: (cs ++ rest)).dropWhile isNumChar) from by
        simp only [parseVal, skipWs_cons_not _ (isNumStart_not_ws hstart)]
        simp [hne1, hne2, hne3, hne4, hne5, hne6, hstart]]
    have hsplit := takeWhile_append_tok (p := isNumChar) (c :: cs) rest
      (by rw [← hlist]; exact hall) hrest
    rw [show c :: (cs ++ rest) = (c :: cs) ++ rest from rfl, hsplit.1, hsplit.2,
      ← hlist]
    rfl
  | list xs => simp [cleanScalar] at hv
  | dict kvs => simp [cleanScalar] at hv

theorem mk_toList (s : String) : String.mk s.toList = s := rfl

theorem parseVal_scalar_ge (v : PyVal) (hv : cleanScalar v = true)
    (fuel : Nat) (hfuel : 1 ≤ fuel) (rest : List Char)
    (hrest : ∀ c ∈ rest.take 1, isNumChar c = false) :
    parseVal fuel (dumpChars v ++ rest) = some (v, rest) := by
  match fuel, hfuel with
  | f + 1, _ => exact parseVal_scalar v hv f rest hrest

theorem numDelim_cons (d : Char) {l : List Char} (hd : isNumChar d = false) :
    ∀ c ∈ (d :: l).take 1, isNumChar c = false := by
  intro c hc
  simp [List.take_succ_cons] at hc
  subst hc
  exact hd

theorem parseMembers_dump (kvs : List (String × PyVal))
    (h : ∀ e ∈ kvs, safeStr e.1 = true ∧ cleanScalar e.2 = true)
    (hne : kvs ≠ []) (rest : List Char) (fuel : Nat)
    (hfuel : kvs.length + 1 ≤ fuel) :
    parseMembers fuel (joinComma (dumpMembers kvs) ++ '\x7d' :: rest) =
      some (kvs, rest) := by
  induction kvs generalizing fuel rest with
  | nil => exact absurd rfl hne
  | cons kv tail ih =>
    obtain ⟨k, v⟩ := kv
    have hk : safeStr k = true := (h (k, v) (by simp)).1
    have hv : cleanScalar v = true := (h (k, v) (by simp)).2
    have hksafe : ∀ c ∈ k.toList, safeChar c = true := by
      simpa [safeStr, List.all_eq_true] using hk
    match fuel, hfuel with
    | f + 1, hfuel =>
    have hf : tail.length + 1 ≤ f := by simp at hfuel; omega
    cases tail with
    | nil =>
      simp only [dumpMembers, joinComma, joinSep, dumpStrChars,
        List.cons_append, List.append_assoc, List.singleton_append,
        List.nil_append]
      simp only [parseMembers,
        skipWs_cons_not _ (by decide : isJsonWs '"' = false), if_true]
      rw [parseStrBody_dump k.toList hksafe]
      simp only [skipWs_cons_not _ (by decide : isJsonWs ':' = false), if_true]
      rw [parseVal_scalar_ge v hv f (by omega) _
        (numDelim_cons '\x7d' (by decide))]
      simp only [skipWs_cons_not _ (by decide : isJsonWs '\x7d' = false)]
      rw [if_neg (by decide : ¬ ('\x7d' : Char) = ',')]
      simp only [if_true, mk_toList]
    | cons b bt =>
      obtain ⟨bk, bv⟩ := b
      have htail : ∀ e ∈ (bk, bv) :: bt,
          safeStr e.1 = true ∧ cleanScalar e.2 = true :=
        fun e he => h e (by simp [he])
      have ihx := ih htail (by simp) rest f hf
      simp only [dumpMembers, joinComma, joinSep, dumpStrChars,
        List.cons_append, List.append_assoc, List.singleton_append,
        List.nil_append] at ihx ⊢
      simp only [parseMembers,
        skipWs_cons_not _ (by decide : isJsonWs '"' = false), if_true]
      rw [parseStrBody_dump k.toList hksafe]
      simp only [skipWs_cons_not _ (by decide : isJsonWs ':' = false), if_true]
      rw [parseVal_scalar_ge v hv f (by omega) _
        (numDelim_cons ',' (by decide))]
      simp only [skipWs_cons_not _ (by decide : isJsonWs ',' = false), if_true]
      rw [ihx]
      rfl

theorem toList_mk (l : List Char) : (String.mk l).toList = l := rfl

theorem length_mk (l : List Char) : (String.mk l).length = l.length := rfl

theorem joinComma_members_head (k : String) (v : PyVal)
    (t : List (String × PyVal)) :
    ∃ tail, joinComma (dumpMembers ((k, v) :: t)) = '"' :: tail := by
  cases t with
  | nil =>
    refine ⟨k.toList.flatMap escChar ++ '"' :: ':' :: dumpChars v, ?_⟩
    simp [dumpMembers, joinComma, joinSep, dumpStrChars]
  | cons b bt =>
    obtain ⟨bk, bv⟩ := b
    refine ⟨k.toList.flatMap escChar ++ '"' :: ':' :: dumpChars v ++
      ',' :: joinSep ','
        ((dumpStrChars bk ++ ':' :: dumpChars bv) :: dumpMembers bt), ?_⟩
    simp [dumpMembers, joinComma, joinSep, dumpStrChars]

theorem member_length_ge (k : String) (v : PyVal) :
    3 ≤ (dumpStrChars k ++ ':' :: dumpChars v).length := by
  simp [dumpStrChars]
  omega

theorem joinComma_members_length (kvs : List (String × PyVal)) :
    kvs.length ≤ (joinComma (dumpMembers kvs)).length + 1 := by
  induction kvs with
  | nil => simp [dumpMembers, joinComma, joinSep]
  | cons a t ih =>
    obtain ⟨k, v⟩ := a
    cases t with
    | nil => simp [dumpMembers, joinComma, joinSep]
    | cons b bt =>
      obtain ⟨bk, bv⟩ := b
      have hm := member_length_ge k v
      simp only [dumpMembers, joinComma, joinSep, List.length_cons,
        List.length_append] at ih ⊢
      omega

theorem sortPairs_perm (kvs : List (String × PyVal)) :
    List.Perm (sortPairs kvs) kvs := by
  unfold sortPairs
  exact List.perm_insertionSort _ kvs

theorem parseVal_dict (kvs : List (String × PyVal))
    (hclean : ∀ e ∈ kvs, safeStr e.1 = true ∧ cleanScalar e.2 = true)
    (hne : kvs ≠ []) (fuel : Nat) (hfuel : (sortPairs kvs).length + 1 ≤ fuel)
    (rest : List Char) :
    parseVal (fuel + 1) (dumpChars (PyVal.dict kvs) ++ rest) =
      some (PyVal.dict (sortPairs kvs), rest) := by
  have hperm := sortPairs_perm kvs
  have hcleans : ∀ e ∈ sortPairs kvs,
      safeStr e.1 = true ∧ cleanScalar e.2 = true :=
    fun e he => hclean e (hperm.mem_iff.mp he)
  have hsne : sortPairs kvs ≠ [] := by
    intro e
    have hp2 := hperm
    rw [e] at hp2
    exact hne (List.Perm.eq_nil hp2.symm)
  have hmem := parseMembers_dump (sortPairs kvs) hcleans hsne rest fuel hfuel
  rcases hs : sortPairs kvs with _ | ⟨⟨k0, v0⟩, t0⟩
  · exact absurd hs hsne
  · rw [hs] at hmem
    obtain ⟨tl, htl⟩ := joinComma_members_head k0 v0 t0
    rw [htl, List.cons_append] at hmem
    simp only [dumpChars, hs, htl, List.cons_append, List.append_assoc,
      List.singleton_append, List.nil_append]
    simp only [parseVal,
      skipWs_cons_not _ (by decide : isJsonWs '{' = false),
      skipWs_cons_not _ (by decide : isJsonWs '"' = false)]
    rw [if_neg (by decide : ¬ ('{' : Char) = '"')]
    simp only [if_true]
    rw [if_neg (by decide : ¬ ('"' : Char) = '}')]
    rw [hmem]
    rfl

theorem loads_dumps_record (r : PyVal) (h : cleanRecord r = true) :
    loads (dumps r) = some (canonFlat r) := by
  cases r with
  | none => simp [cleanRecord] at h
  | bool b => simp [cleanRecord] at h
  | num t => simp [cleanRecord] at h
  | str s => simp [cleanRecord] at h
  | list xs => simp [cleanRecord] at h
  | dict kvs =>
    have hne : kvs ≠ [] := by
      simp only [cleanRecord, Bool.and_eq_true] at h
      simpa [List.isEmpty_iff] using h.1.1
    have hclean : ∀ e ∈ kvs, safeStr e.1 = true ∧ cleanScalar e.2 = true := by
      simp only [cleanRecord, Bool.and_eq_true, List.all_eq_true] at h
      intro e he
      simpa using h.1.2 e he
    have hlen : (sortPairs kvs).length + 1 ≤ (dumpChars (PyVal.dict kvs)).length := by
      have h1 := joinComma_members_length (sortPairs kvs)
      simp only [dumpChars, List.length_cons, List.length_append]
      simp at h1 ⊢
      omega
    have hmain := parseVal_dict kvs hclean hne (dumpChars (PyVal.dict kvs)).length
      hlen []
    rw [List.append_nil] at hmain
    unfold loads
    rw [show (dumps (PyVal.dict kvs)).toList = dumpChars (PyVal.dict kvs) from rfl,
      show (dumps (PyVal.dict kvs)).length = (dumpChars (PyVal.dict kvs)).length
        from rfl,
      hmain]
    simp [canonFlat, skipWs]

theorem no_nl_escChar {c : Char} (h : safeChar c = true) : '\n' ∉ escChar c := by
  by_cases h1 : c = '"'
  · subst h1
    decide
  · by_cases h2 : c = '\\'
    · subst h2
      decide
    · rw [escChar_lit h h1 h2]
      obtain ⟨hl, _⟩ := safeChar_val h
      intro hm
      simp at hm
      subst hm
      exact absurd hl (by decide)

theorem no_nl_dumpStr {s : String} (h : safeStr s = true) :
    '\n' ∉ dumpStrChars s := by
  have hs : ∀ c ∈ s.toList, safeChar c = true := by
    simpa [safeStr, List.all_eq_true] using h
  simp only [dumpStrChars]
  intro hm
  simp only [List.mem_cons, List.mem_append, List.mem_flatMap,
    List.mem_singleton] at hm
  rcases hm with (e | ⟨c, hc, he⟩) | e
  · exact absurd e (by decide)
  · exact no_nl_escChar (hs c hc) he
  · exact absurd e (by decide)

theorem isNumChar_ne_nl {c : Char} (h : isNumChar c = true) : c ≠ '\n' := by
  intro e
  subst e
  exact absurd h (by decide)

theorem no_nl_scalar {v : PyVal} (h : cleanScalar v = true) :
    '\n' ∉ dumpChars v := by
  cases v with
  | none => simp [dumpChars]
  | bool b => cases b <;> simp [dumpChars]
  | num t =>
    have ht : numTok t = true := by simpa [cleanScalar] using h
    obtain ⟨c, cs, hlist, _, hall⟩ := numTok_facts ht
    simp only [dumpChars]
    intro hm
    exact absurd rfl (isNumChar_ne_nl (hall _ hm))
  | str s =>
    simp only [dumpChars]
    exact no_nl_dumpStr (by simpa [cleanScalar] using h)
  | list xs => simp [cleanScalar] at h
  | dict kvs => simp [cleanScalar] at h

theorem no_nl_joinSep (sep : Char) (hsep : sep ≠ '\n')
    (ls : List (List Char)) (h : ∀ l ∈ ls, '\n' ∉ l) :
    '\n' ∉ joinSep sep ls := by
  induction ls with
  | nil => simp [joinSep]
  | cons x t ih =>
    cases t with
    | nil => exact fun hm => h x (by simp) (by simpa [joinSep] using hm)
    | cons y yt =>
      intro hm
      simp only [joinSep, List.mem_append, List.mem_cons] at hm
      rcases hm with e | e | e
      · exact h x (by simp) e
      · exact hsep e.symm
      · exact ih (fun l hl => h l (by simp [hl])) e

theorem no_nl_members (kvs : List (String × PyVal))
    (h : ∀ e ∈ kvs, safeStr e.1 = true ∧ cleanScalar e.2 = true) :
    ∀ l ∈ dumpMembers kvs, '\n' ∉ l := by
  induction kvs with
  | nil => simp [dumpMembers]
  | cons a t ih =>
    obtain ⟨k, v⟩ := a
    intro l hl
    simp only [dumpMembers, List.mem_cons] at hl
    rcases hl with e1 | e1
    · subst e1
      intro hm2
      simp only [List.mem_append, List.mem_cons] at hm2
      rcases hm2 with e2 | e2 | e2
      · exact no_nl_dumpStr (h (k, v) (by simp)).1 e2
      · exact absurd e2 (by decide)
      · exact no_nl_scalar (h (k, v) (by simp)).2 e2
    · exact ih (fun e he => h e (by simp [he])) l e1

theorem no_nl_record {r : PyVal} (h : cleanRecord r = true) :
    '\n' ∉ dumpChars r := by
  cases r with
  | none => simp [cleanRecord] at h
  | bool b => simp [cleanRecord] at h
  | num t => simp [cleanRecord] at h
  | str s => simp [cleanRecord] at h
  | list xs => simp [cleanRecord] at h
  | dict kvs =>
    have hclean : ∀ e ∈ kvs, safeStr e.1 = true ∧ cleanScalar e.2 = true := by
      simp only [cleanRecord, Bool.and_eq_true, List.all_eq_true] at h
      intro e he
      simpa using h.1.2 e he
    have hcleans : ∀ e ∈ sortPairs kvs,
        safeStr e.1 = true ∧ cleanScalar e.2 = true :=
      fun e he => hclean e ((sortPairs_perm kvs).mem_iff.mp he)
    simp only [dumpChars]
    intro hm
    simp only [List.mem_cons, List.mem_append, List.mem_singleton] at hm
    rcases hm with (e | e) | e
    · exact absurd e (by decide)
    · refine no_nl_joinSep ',' (by decide) _ (no_nl_members _ hcleans) ?_
      simpa [joinComma] using e
    · exact absurd e (by decide)

theorem splitNL_no_nl (l : List Char) (h : '\n' ∉ l) : splitNL l = [l] := by
  induction l with
  | nil => simp [splitNL]
  | cons c r ih =>
    have hc : ¬ c = '\n' := fun e => h (by simp [e])
    have hr : '\n' ∉ r := fun e => h (by simp [e])
    simp [splitNL, hc, ih hr]

theorem splitNL_append (x r : List Char) (h : '\n' ∉ x) :
    splitNL (x ++ '\n' :: r) = x :: splitNL r := by
  induction x with
  | nil => simp [splitNL]
  | cons c t ih =>
    have hc : ¬ c = '\n' := fun e => h (by simp [e])
    have ht : '\n' ∉ t := fun e => h (by simp [e])
    simp [splitNL, hc, ih ht]

theorem splitNL_joinSep (ls : List (List Char)) (h : ∀ l ∈ ls, '\n' ∉ l)
    (hne : ls ≠ []) : splitNL (joinSep '\n' ls) = ls := by
  induction ls with
  | nil => exact absurd rfl hne
  | cons x t ih =>
    cases t with
    | nil => simpa [joinSep] using splitNL_no_nl x (h x (by simp))
    | cons y yt =>
      rw [show joinSep '\n' (x :: y :: yt) = x ++ '\n' :: joinSep '\n' (y :: yt)
        from rfl]
      rw [splitNL_append x _ (h x (by simp)),
        ih (fun l hl => h l (by simp [hl])) (by simp)]

theorem dumpChars_record_ne_nil {r : PyVal} (h : cleanRecord r = true) :
    dumpChars r ≠ [] := by
  cases r <;> simp_all [cleanRecord, dumpChars]

theorem pySplitlines_batchBody (products : List PyVal)
    (h : ∀ p ∈ products, cleanRecord p = true) (hne : products ≠ []) :
    pySplitlines (batchBody products) = products.map dumps := by
  simp only [pySplitlines, batchBody, toList_mk]
  rw [splitNL_joinSep (products.map dumpChars)
    (fun l hl => by
      obtain ⟨p, hp, e⟩ := List.mem_map.mp hl
      exact e ▸ no_nl_record (h p hp))
    (by simpa using hne)]
  rw [if_neg (fun e : (products.map dumpChars).getLast? = some [] => by
    have hmem : ([] : List Char) ∈ products.map dumpChars := by
      have hne2 : products.map dumpChars ≠ [] := by simpa using hne
      have := List.getLast?_eq_getLast_of_ne_nil hne2
      rw [this] at e
      exact (Option.some.inj e) ▸ List.getLast_mem hne2
    obtain ⟨p, hp, e2⟩ := List.mem_map.mp hmem
    exact dumpChars_record_ne_nil (h p hp) e2)]
  simp [List.map_map, dumps, Function.comp]

theorem stripNonempty_dumps {r : PyVal} (h : cleanRecord r = true) :
    stripNonempty (dumps r) = true := by
  cases r <;> simp_all [cleanRecord, stripNonempty, dumps, toList_mk, dumpChars,
    pyIsSpace]

theorem parseLine_fold (products : List PyVal)
    (h : ∀ p ∈ products, cleanRecord p = true) (acc : List PyVal) :
    (products.map dumps).foldlM parseLineStep acc =
      Except.ok (acc ++ products.map canonFlat) := by
  induction products generalizing acc with
  | nil => simp [pure, Except.pure]
  | cons p t ih =>
    have hp : cleanRecord p = true := h p (by simp)
    simp only [List.map_cons, List.foldlM_cons, parseLineStep,
      stripNonempty_dumps hp, loads_dumps_record p hp, if_true]
    rw [show ((Except.ok (acc ++ [canonFlat p]) : Except ApiErr (List PyVal)) >>=
      fun acc2 => (t.map dumps).foldlM parseLineStep acc2) =
        (t.map dumps).foldlM parseLineStep (acc ++ [canonFlat p]) from rfl]
    rw [ih (fun q hq => h q (by simp [hq])) (acc ++ [canonFlat p])]
    simp

theorem readKeyStep_eval (store : S3State) (k : String) (items : List PyVal)
    (products : List PyVal)
    (hfind : (store.find? (fun e => e.1 == k)).map (fun e => e.2) =
      some (batchBody products))
    (hclean : cleanBatch products = true) :
    readKeyStep store items k = .ok (items ++ products.map canonFlat) := by
  have hne : products ≠ [] := by
    simp only [cleanBatch, Bool.and_eq_true] at hclean
    simpa [List.isEmpty_iff] using hclean.1
  have hrec : ∀ p ∈ products, cleanRecord p = true := by
    simp only [cleanBatch, Bool.and_eq_true, List.all_eq_true] at hclean
    exact hclean.2
  simp only [readKeyStep, hfind]
  rw [pySplitlines_batchBody products hrec hne]
  exact parseLine_fold products hrec items

theorem keys_fold (store : S3State) (batches : String → List PyVal)
    (keys : List String)
    (hb : ∀ k ∈ keys, (store.find? (fun e => e.1 == k)).map (fun e => e.2) =
      some (batchBody (batches k)) ∧ cleanBatch (batches k) = true)
    (acc : List PyVal) :
    keys.foldlM (readKeyStep store) acc =
      .ok (acc ++ keys.flatMap (fun k => (batches k).map canonFlat)) := by
  induction keys generalizing acc with
  | nil => simp [pure, Except.pure]
  | cons k t ih =>
    simp only [List.foldlM_cons]
    rw [readKeyStep_eval store k acc (batches k) (hb k (by simp)).1
      (hb k (by simp)).2]
    rw [show ((Except.ok (acc ++ (batches k).map canonFlat) :
      Except ApiErr (List PyVal)) >>= fun acc2 =>
        t.foldlM (readKeyStep store) acc2) =
          t.foldlM (readKeyStep store) (acc ++ (batches k).map canonFlat)
      from rfl]
    rw [ih (fun k2 hk2 => hb k2 (by simp [hk2]))]
    simp

theorem find?_key (store : S3State) (k : String)
    (hk : k ∈ store.map Prod.fst) :
    ∃ e ∈ store, e.1 = k ∧ store.find? (fun x => x.1 == k) = some e := by
  obtain ⟨e0, he0, hk0⟩ := List.mem_map.mp hk
  have hsome : (store.find? (fun x => x.1 == k)).isSome := by
    rw [List.find?_isSome]
    exact ⟨e0, he0, by simp [hk0]⟩
  obtain ⟨e, he⟩ := Option.isSome_iff_exists.mp hsome
  refine ⟨e, List.mem_of_find?_eq_some he, ?_, he⟩
  simpa using List.find?_some he

theorem mem_sortedJsonlKeys {store : S3State} {pfx k : String}
    (hk : k ∈ sortedJsonlKeys store pfx) :
    k ∈ store.map Prod.fst ∧ pyStartsWith k pfx = true ∧
      pyEndsWith k ".jsonl" = true := by
  unfold sortedJsonlKeys at hk
  rw [(List.perm_insertionSort _ _).mem_iff] at hk
  have := List.mem_filter.mp hk
  refine ⟨this.1, ?_, ?_⟩ <;> simp_all

theorem list_products_eval (store : S3State) (pfx : String) (limit : Int)
    (batches : String → List PyVal)
    (hstore : ∀ e ∈ store, pyStartsWith e.1 pfx = true →
      pyEndsWith e.1 ".jsonl" = true →
      e.2 = batchBody (batches e.1) ∧ cleanBatch (batches e.1) = true)
    (hne : sortedJsonlKeys store pfx ≠ []) :
    list_products store pfx limit =
      .ok ((pySliceFrom (sortedJsonlKeys store pfx) (-limit)).flatMap
        (fun k => (batches k).map canonFlat)) := by
  simp only [list_products]
  rw [if_neg (by simpa [List.isEmpty_iff] using hne)]
  rw [keys_fold store batches (pySliceFrom (sortedJsonlKeys store pfx) (-limit))
    (fun k hk => by
      have hk2 : k ∈ sortedJsonlKeys store pfx := by
        unfold pySliceFrom at hk
        split at hk
        · exact List.drop_subset _ _ hk
        · exact List.drop_subset _ _ hk
      obtain ⟨hmem, hpre, hsuf⟩ := mem_sortedJsonlKeys hk2
      obtain ⟨e, he, hek, hfind⟩ := find?_key store k hmem
      obtain ⟨hbody, hcl⟩ := hstore e he (hek ▸ hpre) (hek ▸ hsuf)
      constructor
      · rw [hfind]
        simp [hbody, hek]
      · rw [← hek]
        exact hcl)
    []]
  simp

theorem toList_append (a b : String) : (a ++ b).toList = a.toList ++ b.toList :=
  rfl

theorem pyStartsWith_append (pfx rest : String) :
    pyStartsWith (pfx ++ rest) pfx = true := by
  simp [pyStartsWith, toList_append, List.isPrefixOf_iff_prefix]

theorem suffix_append_right {l a b : List Char} (h : l <:+ b) :
    l <:+ a ++ b :=
  h.trans (List.suffix_append a b)

theorem batchKey_endsWith (pfx : String) (now : UTCNow) :
    pyEndsWith (batchKey pfx now) ".jsonl" = true := by
  simp only [pyEndsWith, batchKey, toList_append, List.isSuffixOf_iff_suffix,
    List.append_assoc]
  repeat apply suffix_append_right
  exact List.suffix_refl _

theorem sorted_le_getLast {l : List String}
    (hs : l.Sorted (fun a b => a ≤ b)) {x : String} (hx : x ∈ l)
    (h : l ≠ []) : x ≤ l.getLast h := by
  induction l with
  | nil => exact absurd rfl h
  | cons a t ih =>
    rcases List.mem_cons.mp hx with e | e
    · subst e
      cases t with
      | nil => simp [List.getLast]
      | cons b bt =>
        rw [List.getLast_cons (by simp)]
        exact (List.sorted_cons.mp hs).1 _ (List.getLast_mem (by simp))
    · rw [List.getLast_cons (List.ne_nil_of_mem e)]
      exact ih (List.sorted_cons.mp hs).2 e (List.ne_nil_of_mem e)

theorem getLast_eq_max {l : List String}
    (hs : l.Sorted (fun a b => a ≤ b)) {key : String} (hmem : key ∈ l)
    (hmax : ∀ k ∈ l, k ≤ key) (h : l ≠ []) : l.getLast h = key :=
  le_antisymm (hmax _ (List.getLast_mem h)) (sorted_le_getLast hs hmem h)

theorem drop_length_sub_one {α : Type} (l : List α) (h : l ≠ []) :
    l.drop (l.length - 1) = [l.getLast h] := by
  induction l with
  | nil => exact absurd rfl h
  | cons a t ih =>
    cases t with
    | nil => simp
    | cons b bt =>
      rw [List.getLast_cons (by simp : b :: bt ≠ [])]
      rw [show (a :: b :: bt).length - 1 = ((b :: bt).length - 1) + 1 from by
        simp]
      rw [List.drop_succ_cons]
      exact ih (by simp)

theorem pySliceFrom_neg_one (l : List String) (h : l ≠ []) :
    pySliceFrom l (-1) = [l.getLast h] := by
  unfold pySliceFrom
  rw [if_pos (by norm_num)]
  rw [show (-(-1 : Int)).toNat = 1 from rfl]
  exact drop_length_sub_one l h

theorem sortedJsonlKeys_sorted (store : S3State) (pfx : String) :
    (sortedJsonlKeys store pfx).Sorted (fun a b => a ≤ b) :=
  List.sorted_insertionSort _ _

theorem mem_sortedJsonlKeys_iff {store : S3State} {pfx k : String} :
    k ∈ sortedJsonlKeys store pfx ↔
      k ∈ store.map Prod.fst ∧ pyStartsWith k pfx = true ∧
        pyEndsWith k ".jsonl" = true := by
  unfold sortedJsonlKeys
  rw [(List.perm_insertionSort _ _).mem_iff, List.mem_filter]
  simp

/-! ### Transform-layer observation helpers -/

/-- The value of a successful step, or `d` if it raised (used only to state
results about the non-raising path). -/
def exOr (r : Except PyErr PyVal) (d : PyVal) : PyVal :=
  match r with
  | .ok v => v
  | .error _ => d

/-- Field of a record dict. -/
def fieldOf (p : PyVal) (k : String) : Option PyVal :=
  match p with
  | .dict kvs => dictLookup kvs k
  | _ => Option.none

/-- The id of a transform result's record, when it succeeded. -/
def idOfResult (r : Except PyErr PyVal) : Option PyVal :=
  match r with
  | .ok p => fieldOf p "id"
  | .error _ => Option.none

/-- The string hashed for the record id: the stringified provider `lat`,
`lon` (from the response's own `coord` section) and the provider
observation timestamp `dt` — `f"\x7blat\x7d,\x7blon\x7d,\x7bw.get('dt')\x7d"`. -/
def hashInput (w : PyVal) : String :=
  pyStr (exOr (pyGet (pyOr (exOr (pyGet w "coord") .none) (.dict [])) "lat")
      .none) ++ "," ++
    pyStr (exOr (pyGet (pyOr (exOr (pyGet w "coord") .none) (.dict [])) "lon")
      .none) ++ "," ++
    pyStr (exOr (pyGet w "dt") .none)

/-- The request-metadata name `(w.get("_meta") or \x7b\x7d).get("requested_name")`. -/
def reqNameOf (w : PyVal) : PyVal :=
  exOr (pyGet (pyOr (exOr (pyGet w "_meta") .none) (.dict [])) "requested_name")
    .none

/-- The provider-returned name `w.get("name")`. -/
def provNameOf (w : PyVal) : PyVal :=
  exOr (pyGet w "name") .none

/-- The shape conditions under which the `transform_weather` loop body does
not raise on a mapping `w`: the `main`/`wind`/`sys` sections are mappings
when present, `_meta` and `coord` are mappings when truthy, and `weather`
when truthy is a nonempty list whose first element is a mapping. -/
def TransformSafe (w : PyVal) : Bool :=
  w.isDict &&
  (exOr (pyGetD w "main" (.dict [])) .none).isDict &&
  (exOr (pyGetD w "wind" (.dict [])) .none).isDict &&
  (exOr (pyGetD w "sys" (.dict [])) .none).isDict &&
  (pyOr (exOr (pyGet w "_meta") .none) (.dict [])).isDict &&
  (pyOr (exOr (pyGet w "coord") .none) (.dict [])).isDict &&
  (match pyOr (exOr (pyGet w "weather") .none) (.list [.dict []]) with
   | .list (x :: _) => x.isDict
   | _ => false)

theorem pyGet_error_not_dict {v : PyVal} {k : String} {e : PyErr}
    (h : pyGet v k = .error e) : v.isDict = false := by
  cases v <;> simp_all [pyGet, pyGetD, PyVal.isDict]

theorem pyGet_dict_ok {v : PyVal} {k : String} (h : v.isDict = true) :
    ∃ x, pyGet v k = .ok x := by
  cases v <;> simp_all [pyGet, pyGetD, PyVal.isDict]

theorem pyGetD_dict_eq (kvs : List (String × PyVal)) (k : String) (d : PyVal) :
    pyGetD (.dict kvs) k d = .ok ((dictLookup kvs k).getD d) := rfl

theorem pyGet_dict_eq (kvs : List (String × PyVal)) (k : String) :
    pyGet (.dict kvs) k = .ok ((dictLookup kvs k).getD .none) := rfl

theorem pyGet_ok_of_dict (k : String) {v : PyVal} (h : v.isDict = true) :
    ∃ x, pyGet v k = .ok x := by
  cases v <;> simp_all [pyGet, pyGetD, PyVal.isDict]

theorem weather_shape {v : PyVal}
    (h : (match v with
      | PyVal.list (x :: _) => x.isDict
      | _ => false) = true) :
    ∃ x xs, v = .list (x :: xs) ∧ x.isDict = true := by
  match v, h with
  | .list (x :: xs), h => exact ⟨x, xs, rfl, h⟩

set_option maxHeartbeats 1000000 in
theorem transform_one_safe_ok (ts : String) (w : PyVal)
    (hs : TransformSafe w = true) : (transform_one ts w).isOk = true := by
  cases w with
  | dict kvs =>
    simp only [TransformSafe, PyVal.isDict, Bool.and_eq_true] at hs
    obtain ⟨⟨⟨⟨⟨⟨-, hMain⟩, hWind⟩, hSys⟩, hMeta⟩, hCoord⟩, hWeather⟩ := hs
    rw [pyGetD_dict_eq, exOr] at hMain hWind hSys
    rw [pyGet_dict_eq, exOr] at hMeta hCoord hWeather
    obtain ⟨rn, hrn⟩ := pyGet_ok_of_dict "requested_name" hMeta
    obtain ⟨la, hla⟩ := pyGet_ok_of_dict "lat" hCoord
    obtain ⟨lo, hlo⟩ := pyGet_ok_of_dict "lon" hCoord
    obtain ⟨t1, ht1⟩ := pyGet_ok_of_dict "temp" hMain
    obtain ⟨t2, ht2⟩ := pyGet_ok_of_dict "feels_like" hMain
    obtain ⟨t3, ht3⟩ := pyGet_ok_of_dict "humidity" hMain
    obtain ⟨t4, ht4⟩ := pyGet_ok_of_dict "pressure" hMain
    obtain ⟨u1, hu1⟩ := pyGet_ok_of_dict "speed" hWind
    obtain ⟨u2, hu2⟩ := pyGet_ok_of_dict "deg" hWind
    obtain ⟨s1, hs1⟩ := pyGet_ok_of_dict "sunrise" hSys
    obtain ⟨s2, hs2⟩ := pyGet_ok_of_dict "sunset" hSys
    obtain ⟨wx, wxs, hwx, hwxd⟩ := weather_shape hWeather
    obtain ⟨dsc, hdsc⟩ := pyGet_ok_of_dict "description" hwxd
    by_cases hrt : truthy rn = true
    · simp [transform_one, bind, Except.bind, pure, Except.pure,
        pyGetD_dict_eq, pyGet_dict_eq, hrn, hrt, hla, hlo, ht1, ht2, ht3, ht4,
        hu1, hu2, hs1, hs2, hwx, pyIndex0, hdsc, Except.isOk, Except.toBool]
    · simp [transform_one, bind, Except.bind, pure, Except.pure,
        pyGetD_dict_eq, pyGet_dict_eq, hrn, hrt, hla, hlo, ht1, ht2, ht3, ht4,
        hu1, hu2, hs1, hs2, hwx, pyIndex0, hdsc, Except.isOk, Except.toBool]
  | none => simp [TransformSafe, PyVal.isDict] at hs
  | bool b => simp [TransformSafe, PyVal.isDict] at hs
  | num t => simp [TransformSafe, PyVal.isDict] at hs
  | str s => simp [TransformSafe, PyVal.isDict] at hs
  | list xs => simp [TransformSafe, PyVal.isDict] at hs

/-! ### Concrete sample data used by the witnesses -/

/-- The members of a raw provider response body (note: no `wind` section). -/
def wBodyKvs : List (String × PyVal) :=
  [("coord", .dict [("lat", .num "49.61"), ("lon", .num "6.13")]),
    ("dt", .num "1700000000"),
    ("main", .dict [("temp", .num "12.5")]),
    ("weather", .list [.dict [("description", .str "clouds")]])]

/-- A raw provider response body as the transform expects it. -/
def wBody : PyVal :=
  .dict wBodyKvs

/-- A configured coordinate. -/
def wCoord : Coord :=
  ⟨.str "Luxembourg", .num "49.61", .num "6.13"⟩

/-- A second coordinate, distinguishable by its falsy name. -/
def wCoordBad : Coord :=
  ⟨.str "", .num "41.87", .num "-87.62"⟩

/-- A provider that always answers 200 with `wBody`. -/
def wProviderOk : Coord → HttpResp :=
  fun _ => ⟨200, wBody⟩

/-- A provider that fails (HTTP 500) exactly on coordinates with a falsy
name. -/
def wProviderMixed : Coord → HttpResp :=
  fun c => if truthy c.name then ⟨200, wBody⟩ else ⟨500, wBody⟩

theorem isOk_exists {ε α : Type} {r : Except ε α} (h : r.isOk = true) :
    ∃ a, r = .ok a := by
  cases r <;> simp_all [Except.isOk, Except.toBool]

/-! ### Claim theorems -/

/-- C2: if the provider returns an error status for one coordinate (all
earlier coordinates having succeeded), the whole fetch fails with a
provider error carrying that coordinate and status, no request is issued
for any later coordinate, no partial list of raw observations is returned,
and the composed job publishes nothing: the store is unchanged and zero
normalized records are produced downstream. -/
theorem fetch_fail_all_or_nothing (provider : Coord → HttpResp)
    (pre : List Coord) (c : Coord) (post : List Coord)
    (hpre : ∀ p ∈ pre, isErrorStatus (provider p).status = false ∧
      (provider p).body.isDict = true)
    (herr : isErrorStatus (provider c).status = true)
    (ts bucket pfx : String) (now : UTCNow) (store : S3State) :
    (fetch_weather provider (pre ++ c :: post)).issued = pre ++ [c] ∧
    (fetch_weather provider (pre ++ c :: post)).result =
      .error (.providerError c (provider c).status) ∧
    weather_product_job provider (pre ++ c :: post) ts bucket pfx now store =
      (store, .error (.fetch (.providerError c (provider c).status))) := by
  have hfetch : (fetch_weather provider (pre ++ c :: post)).issued =
      pre ++ [c] ∧
      (fetch_weather provider (pre ++ c :: post)).result =
        .error (.providerError c (provider c).status) := by
    induction pre with
    | nil =>
      simp [fetch_weather, herr]
    | cons p t ih =>
      have h1 := (hpre p (by simp)).1
      have h2 := (hpre p (by simp)).2
      obtain ⟨kvs, hkvs⟩ : ∃ kvs, (provider p).body = .dict kvs := by
        cases hb : (provider p).body <;> simp_all [PyVal.isDict]
      obtain ⟨ih1, ih2⟩ := ih (fun q hq => hpre q (by simp [hq]))
      simp only [List.cons_append, fetch_weather, h1, Bool.false_eq_true,
        if_false, hkvs, pySetItem]
      constructor
      · simp [ih1]
      · simp [ih2, Except.map]
  refine ⟨hfetch.1, hfetch.2, ?_⟩
  simp only [weather_product_job, hfetch.2]

/-- C2 witness: a two-coordinate list whose second coordinate gets an HTTP
500; the fetch issues both requests and no more, fails with the provider
error, and the job leaves the store unchanged. -/
theorem fetch_fail_all_or_nothing_witness :
    (fetch_weather wProviderMixed [wCoord, wCoordBad]).issued =
      [wCoord] ++ [wCoordBad] ∧
    (fetch_weather wProviderMixed [wCoord, wCoordBad]).result =
      .error (.providerError wCoordBad (wProviderMixed wCoordBad).status) ∧
    weather_product_job wProviderMixed [wCoord, wCoordBad] "T" "b" "p/"
        ⟨2026, 10, 12, 1, 2, 3⟩ [] =
      ([], .error (.fetch (.providerError wCoordBad
        (wProviderMixed wCoordBad).status))) :=
  fetch_fail_all_or_nothing wProviderMixed [wCoord] wCoordBad [] (by decide)
    (by decide) "T" "b" "p/" ⟨2026, 10, 12, 1, 2, 3⟩ []

/-- C8 counterexample: a successful one-coordinate fetch performs 1 fixed
delay, not `1 - 1 = 0`: `time.sleep(0.2)` sits inside the loop body after
every request, including the last. -/
theorem fetch_sleep_after_last :
    (fetch_weather wProviderOk [wCoord]).result.isOk = true ∧
    (fetch_weather wProviderOk [wCoord]).sleeps = 1 ∧
    ¬ ((fetch_weather wProviderOk [wCoord]).sleeps =
      ([wCoord] : List Coord).length - 1) := by
  decide

/-- C8 amended: a successful fetch over `n` coordinates performs exactly
`n` fixed inter-request delays — one after every per-coordinate request,
including the last. -/
theorem fetch_sleeps_count (provider : Coord → HttpResp)
    (coords : List Coord)
    (h : (fetch_weather provider coords).result.isOk = true) :
    (fetch_weather provider coords).sleeps = coords.length := by
  induction coords with
  | nil => simp [fetch_weather]
  | cons c t ih =>
    by_cases he : isErrorStatus (provider c).status = true
    · simp [fetch_weather, he, Except.isOk, Except.toBool] at h
    · cases hset : pySetItem (provider c).body "_meta" (metaDict c) with
      | error e =>
        simp [fetch_weather, he, hset, Except.isOk, Except.toBool] at h
      | ok data =>
        simp only [fetch_weather, he, Bool.false_eq_true, if_false, hset] at h ⊢
        have hok : (fetch_weather provider t).result.isOk = true := by
          cases hr : (fetch_weather provider t).result <;>
            simp_all [Except.map, Except.isOk, Except.toBool]
        simp [ih hok]
        omega

/-- C8 amended witness: a successful two-coordinate fetch performs exactly
2 delays. -/
theorem fetch_sleeps_count_witness :
    (fetch_weather wProviderOk [wCoord, wCoordBad]).sleeps = 2 :=
  fetch_sleeps_count wProviderOk [wCoord, wCoordBad] (by decide)

/-- C4: the record id does not depend on the transform's wall-clock stamp:
two invocations of the transform loop body on the same raw observation at
different `collected_at` stamps produce the same id, and on success that id
is the 16-character hex prefix of the SHA-1 digest of the stringified
provider latitude, longitude and observation timestamp
(`f"\x7blat\x7d,\x7blon\x7d,\x7bw.get('dt')\x7d"`), and of nothing else. -/
theorem transform_id_deterministic (ts₁ ts₂ : String) (w : PyVal) :
    idOfResult (transform_one ts₁ w) = idOfResult (transform_one ts₂ w) ∧
    ((transform_one ts₁ w).isOk = true →
      idOfResult (transform_one ts₁ w) =
        some (.str ((sha1Hex (hashInput w)).take 16))) := by
  constructor
  · simp only [transform_one, bind, Except.bind, pure, Except.pure]
    repeat' split
    all_goals simp_all [idOfResult, fieldOf, dictLookup]
  · intro h
    simp only [transform_one, bind, Except.bind, pure, Except.pure] at h ⊢
    repeat' split
    all_goals simp_all [idOfResult, fieldOf, dictLookup, hashInput, exOr,
      Except.isOk, Except.toBool]

/-- C4 witness: on a concrete raw observation the transform succeeds and
the id at two different collection stamps is the digest-prefix formula. -/
theorem transform_id_deterministic_witness :
    idOfResult (transform_one "2026-01-01T00:00:00+00:00" wBody) =
      idOfResult (transform_one "2026-02-02T00:00:00+00:00" wBody) ∧
    idOfResult (transform_one "2026-01-01T00:00:00+00:00" wBody) =
      some (.str ((sha1Hex (hashInput wBody)).take 16)) :=
  ⟨(transform_id_deterministic "2026-01-01T00:00:00+00:00"
      "2026-02-02T00:00:00+00:00" wBody).1,
    (transform_id_deterministic "2026-01-01T00:00:00+00:00"
      "2026-02-02T00:00:00+00:00" wBody).2 (by decide)⟩

/-- C10: `location_name` resolution is by truthiness, not mere presence:
whenever the request metadata's `requested_name` is falsy (absent, `None`,
or the empty string), the transform falls back to the provider-returned
`name` field; only a truthy `requested_name` is kept. -/
theorem location_name_truthiness (ts : String) (w p : PyVal)
    (hok : transform_one ts w = .ok p) :
    (truthy (reqNameOf w) = false →
      fieldOf p "location_name" = some (provNameOf w)) ∧
    (truthy (reqNameOf w) = true →
      fieldOf p "location_name" = some (reqNameOf w)) := by
  simp only [transform_one, bind, Except.bind, pure, Except.pure] at hok
  repeat' split at hok
  all_goals try (cases hok)
  all_goals simp_all [fieldOf, dictLookup, List.find?, reqNameOf, provNameOf,
    exOr]

/-- A raw observation whose `_meta.requested_name` is explicitly the empty
string (falsy) while the provider returned its own `name`. -/
def wBodyEmptyName : PyVal :=
  .dict [("coord", .dict [("lat", .num "49.61"), ("lon", .num "6.13")]),
    ("dt", .num "1700000000"),
    ("name", .str "Luxembourg"),
    ("_meta", .dict [("requested_name", .str "")])]

/-- C10 witness: with `requested_name = ""` the output record's
`location_name` is the provider's own name. -/
theorem location_name_truthiness_witness :
    fieldOf (exOr (transform_one "T" wBodyEmptyName) .none) "location_name" =
      some (provNameOf wBodyEmptyName) :=
  (location_name_truthiness "T" wBodyEmptyName
    (exOr (transform_one "T" wBodyEmptyName) .none) rfl).1 (by decide)

/-- C3 counterexample: a raw observation that is a mapping but whose
`main` value is a number makes the transform raise
(`main.get("temp")` on an `int`), so "does not raise for every mapping,
regardless of the shape of the values" is false. -/
theorem transform_shape_counterexample :
    PyVal.isDict (.dict [("main", .num "5")]) = true ∧
    (transform_weather "t" [.dict [("main", .num "5")]]).isOk = false := by
  decide

set_option maxHeartbeats 3000000 in
/-- C3 amended: the transform does not raise provided each raw observation
is a mapping whose consulted sections have the expected shapes
(`TransformSafe`): `main`/`wind`/`sys` mappings when present, `_meta` and
`coord` mappings when truthy, `weather` when truthy a nonempty list with a
mapping head.  It does raise whenever an element is not a mapping, and an
absent section yields the explicit no-value marker — e.g. with no `wind`
key both `wind_speed` and `wind_deg` are `None` in the output record. -/
theorem transform_shape_safety (ts : String) (raw : List PyVal) :
    ((∀ w ∈ raw, TransformSafe w = true) →
      (transform_weather ts raw).isOk = true) ∧
    (∀ w ∈ raw, w.isDict = false → (transform_weather ts raw).isOk = false) ∧
    (∀ kvs p, transform_one ts (.dict kvs) = .ok p →
      dictLookup kvs "wind" = Option.none →
      fieldOf p "wind_speed" = some PyVal.none ∧
      fieldOf p "wind_deg" = some PyVal.none) := by
  refine ⟨?_, ?_, ?_⟩
  · intro hall
    induction raw with
    | nil => rfl
    | cons w t ih =>
      obtain ⟨p, hp⟩ := isOk_exists (transform_one_safe_ok ts w
        (hall w (by simp)))
      obtain ⟨l, hl⟩ := isOk_exists (ih (fun q hq => hall q (by simp [hq])))
      simp only [transform_weather] at hl ⊢
      rw [List.mapM_cons, hp, hl]
      rfl
  · intro w hw hnd
    induction raw with
    | nil => simp at hw
    | cons a t ih =>
      rcases List.mem_cons.mp hw with e | e
      · subst e
        have herr : (transform_one ts w).isOk = false := by
          cases w <;>
            simp_all [transform_one, bind, Except.bind, pyGetD, PyVal.isDict,
              Except.isOk, Except.toBool]
        obtain ⟨er, her⟩ : ∃ er, transform_one ts w = .error er := by
          cases hr : transform_one ts w <;>
            simp_all [Except.isOk, Except.toBool]
        simp only [transform_weather, List.mapM_cons, her]
        rfl
      · cases hr : transform_one ts a with
        | error er =>
          simp only [transform_weather, List.mapM_cons, hr]
          rfl
        | ok pa =>
          have := ih e
          simp only [transform_weather, List.mapM_cons, hr] at this ⊢
          cases hrest : List.mapM (transform_one ts) t <;>
            simp_all [Except.isOk, Except.toBool, bind, Except.bind]
  · intro kvs p hok hwind
    simp only [transform_one, bind, Except.bind, pure, Except.pure, pyGet,
      pyGetD, hwind, Option.getD] at hok
    repeat' split at hok
    all_goals try (cases hok)
    all_goals simp_all [fieldOf, dictLookup, List.find?]

/-- C3 amended witness: a batch of well-shaped mappings transforms without
error; a non-mapping observation makes the whole transform fail; and the
record of an observation with no `wind` section carries the explicit
no-value marker in `wind_speed`. -/
theorem transform_shape_safety_witness :
    (transform_weather "T" [wBody]).isOk = true ∧
    (transform_weather "T" [PyVal.str "oops"]).isOk = false ∧
    fieldOf (exOr (transform_one "T" (.dict wBodyKvs)) .none) "wind_speed" =
      some PyVal.none :=
  ⟨(transform_shape_safety "T" [wBody]).1
      (fun w hw => by simp at hw; subst hw; decide),
    (transform_shape_safety "T" [PyVal.str "oops"]).2.1 (PyVal.str "oops")
      (by simp) (by decide),
    ((transform_shape_safety "T" []).2.2 wBodyKvs
      (exOr (transform_one "T" (.dict wBodyKvs)) .none) rfl rfl).1⟩

/-- A concrete publish instant for witnesses. -/
def wNow : UTCNow := ⟨2024, 1, 2, 3, 4, 5⟩

/-- C7: for the empty batch the publisher performs no `put_object` call,
returns the empty-string "nothing written" marker, and leaves the object
store unchanged; for every non-empty batch it performs exactly one put —
the serialized batch under the time-partitioned key — and returns the
fully-qualified `s3://bucket/key` location. -/
theorem upload_empty_and_nonempty (bucket pfx : String) (now : UTCNow)
    (products : List PyVal) (store : S3State) :
    (products = [] →
      (upload_to_s3 bucket pfx now products).puts = [] ∧
      (upload_to_s3 bucket pfx now products).ret = "" ∧
      applyPuts store (upload_to_s3 bucket pfx now products).puts = store) ∧
    (products ≠ [] →
      (upload_to_s3 bucket pfx now products).puts =
        [(batchKey pfx now, batchBody products)] ∧
      (upload_to_s3 bucket pfx now products).ret =
        "s3://" ++ bucket ++ "/" ++ batchKey pfx now) := by
  cases products with
  | nil => simp [upload_to_s3, applyPuts]
  | cons p t => simp [upload_to_s3, applyPuts]

/-- C7 witness: at a concrete bucket, prefix, instant and store, the empty
batch writes nothing and leaves the store intact, while a one-record batch
returns its `s3://` location. -/
theorem upload_empty_and_nonempty_witness :
    ((upload_to_s3 "b" "p/" wNow []).puts = [] ∧
      (upload_to_s3 "b" "p/" wNow []).ret = "" ∧
      applyPuts [("k", "v")] (upload_to_s3 "b" "p/" wNow []).puts =
        [("k", "v")]) ∧
    (upload_to_s3 "b" "p/" wNow [PyVal.none]).ret =
      "s3://" ++ "b" ++ "/" ++ batchKey "p/" wNow :=
  ⟨(upload_empty_and_nonempty "b" "p/" wNow [] [("k", "v")]).1 rfl,
    ((upload_empty_and_nonempty "b" "p/" wNow [PyVal.none] []).2
      (by simp)).2⟩

theorem batchKey_startsWith (pfx : String) (now : UTCNow) :
    pyStartsWith (batchKey pfx now) pfx = true := by
  simp only [pyStartsWith, batchKey, toList_append, List.isPrefixOf_iff_prefix,
    List.append_assoc]
  exact List.prefix_append _ _

/-- C5: every object the publisher writes for a non-empty batch of clean
records satisfies the storage invariant — its key lies under the prefix and
carries the `.jsonl` suffix, and its body splits into one line per record
with no blank line and no trailing partial line, each line being the JSON
serialization of its record and parsing back to that record. -/
theorem published_object_invariant (bucket pfx : String) (now : UTCNow)
    (products : List PyVal) (hclean : cleanBatch products = true) :
    ∀ kb ∈ (upload_to_s3 bucket pfx now products).puts,
      pyStartsWith kb.1 pfx = true ∧
      pyEndsWith kb.1 ".jsonl" = true ∧
      pySplitlines kb.2 = products.map dumps ∧
      (∀ line ∈ pySplitlines kb.2, stripNonempty line = true) ∧
      (pySplitlines kb.2).map loads =
        products.map (fun p => some (canonFlat p)) := by
  simp only [cleanBatch, Bool.and_eq_true, List.all_eq_true,
    Bool.not_eq_true'] at hclean
  obtain ⟨hemp, hall⟩ := hclean
  have hne : products ≠ [] := fun e => by simp [e] at hemp
  intro kb hkb
  simp only [upload_to_s3, hemp, Bool.false_eq_true, if_false,
    List.mem_singleton] at hkb
  subst hkb
  have hsplit : pySplitlines (batchBody products) = products.map dumps :=
    pySplitlines_batchBody products hall hne
  refine ⟨batchKey_startsWith pfx now, batchKey_endsWith pfx now, hsplit,
    ?_, ?_⟩
  · intro line hline
    rw [hsplit] at hline
    obtain ⟨p, hp, e⟩ := List.mem_map.mp hline
    exact e ▸ stripNonempty_dumps (hall p hp)
  · rw [hsplit, List.map_map]
    exact List.map_congr_left (fun p hp => loads_dumps_record p (hall p hp))

/-- A concrete clean normalized record for witnesses. -/
def wRecord : PyVal :=
  .dict [("id", .str "abc"), ("temp_c", .num "12.5")]

/-- C5 witness: the one object written for the one-record batch `[wRecord]`
at a concrete bucket, prefix and instant has a `.jsonl` key under the
prefix and a body that splits into exactly that record's serialization. -/
theorem published_object_invariant_witness :
    pyStartsWith (batchKey "p/" wNow) "p/" = true ∧
    pyEndsWith (batchKey "p/" wNow) ".jsonl" = true ∧
    pySplitlines (batchBody [wRecord]) = [wRecord].map dumps :=
  have h := published_object_invariant "b" "p/" wNow [wRecord] (by decide)
    (batchKey "p/" wNow, batchBody [wRecord])
    (by simp [upload_to_s3])
  ⟨h.1, h.2.1, h.2.2.1⟩

theorem pySliceFrom_zero (l : List String) : pySliceFrom l 0 = l := by
  simp [pySliceFrom]

/-- C9: with `limit=0` the endpoint's slice `keys[-0:]` is `keys[0:]`, the
whole key list, so when at least one `.jsonl` object exists under the
prefix the endpoint returns the concatenated records of every matching
object — a non-empty collection, not an empty one and not an error. -/
theorem limit_zero_lists_all (store : S3State) (pfx : String)
    (batches : String → List PyVal)
    (hstore : ∀ e ∈ store, pyStartsWith e.1 pfx = true →
      pyEndsWith e.1 ".jsonl" = true →
      e.2 = batchBody (batches e.1) ∧ cleanBatch (batches e.1) = true)
    (hne : sortedJsonlKeys store pfx ≠ []) :
    list_products store pfx 0 =
      .ok ((sortedJsonlKeys store pfx).flatMap
        (fun k => (batches k).map canonFlat)) ∧
    (sortedJsonlKeys store pfx).flatMap
      (fun k => (batches k).map canonFlat) ≠ [] := by
  constructor
  · rw [list_products_eval store pfx 0 batches hstore hne]
    rw [show (-(0 : Int)) = 0 from rfl, pySliceFrom_zero]
  · intro hnil
    obtain ⟨k, hk⟩ := List.exists_mem_of_ne_nil _ hne
    have hk' := mem_sortedJsonlKeys_iff.mp hk
    obtain ⟨e, he, hek⟩ := List.mem_map.mp hk'.1
    have hb := (hstore e he (hek ▸ hk'.2.1) (hek ▸ hk'.2.2)).2
    simp only [cleanBatch, Bool.and_eq_true, Bool.not_eq_true'] at hb
    have := List.flatMap_eq_nil_iff.mp hnil k hk
    rw [← hek] at this
    simp only [List.map_eq_nil_iff] at this
    simp [this] at hb

/-- A store holding one published batch for witnesses. -/
def wStore : S3State := [(batchKey "p/" wNow, batchBody [wRecord])]

/-- C9 witness: on a store holding one `.jsonl` batch object, `limit=0`
returns all of its records and the returned collection is non-empty. -/
theorem limit_zero_lists_all_witness :
    list_products wStore "p/" 0 =
      .ok ((sortedJsonlKeys wStore "p/").flatMap
        (fun k => ([wRecord]).map canonFlat)) ∧
    (sortedJsonlKeys wStore "p/").flatMap
      (fun k => ([wRecord]).map canonFlat) ≠ [] :=
  limit_zero_lists_all wStore "p/" (fun k => [wRecord])
    (fun e he h1 h2 => by
      simp only [wStore, List.mem_singleton] at he
      subst he
      exact ⟨rfl, by decide⟩)
    (by decide)

theorem pySliceFrom_neg (l : List String) (limit : Int) (h : 1 ≤ limit) :
    pySliceFrom l (-limit) = l.drop (l.length - limit.toNat) := by
  unfold pySliceFrom
  rw [if_pos (by omega), neg_neg]

/-- C6: for every store and every limit `N ≥ 1`, the endpoint's key list is
exactly the stored keys under the prefix with the `.jsonl` suffix, sorted
lexically ascending, and the response concatenates the records of exactly
the last `N` of those keys (all of them when fewer than `N` exist, since
the drop count truncates at zero). -/
theorem listing_selects_last_n (store : S3State) (pfx : String)
    (limit : Int) (hlim : 1 ≤ limit) (batches : String → List PyVal)
    (hstore : ∀ e ∈ store, pyStartsWith e.1 pfx = true →
      pyEndsWith e.1 ".jsonl" = true →
      e.2 = batchBody (batches e.1) ∧ cleanBatch (batches e.1) = true)
    (hne : sortedJsonlKeys store pfx ≠ []) :
    (sortedJsonlKeys store pfx).Sorted (fun a b => a ≤ b) ∧
    (∀ k, k ∈ sortedJsonlKeys store pfx ↔
      k ∈ store.map Prod.fst ∧ pyStartsWith k pfx = true ∧
        pyEndsWith k ".jsonl" = true) ∧
    list_products store pfx limit =
      .ok (((sortedJsonlKeys store pfx).drop
        ((sortedJsonlKeys store pfx).length - limit.toNat)).flatMap
        (fun k => (batches k).map canonFlat)) := by
  refine ⟨sortedJsonlKeys_sorted store pfx,
    fun k => mem_sortedJsonlKeys_iff, ?_⟩
  rw [list_products_eval store pfx limit batches hstore hne,
    pySliceFrom_neg _ limit hlim]

/-- Two later publish instants, giving lexically later keys. -/
def wNow2 : UTCNow := ⟨2024, 1, 2, 3, 4, 6⟩

/-- The third and lexically greatest publish instant. -/
def wNow3 : UTCNow := ⟨2024, 1, 2, 3, 4, 7⟩

/-- A store holding three published batch objects. -/
def wStore3 : S3State :=
  [(batchKey "p/" wNow, batchBody [wRecord]),
    (batchKey "p/" wNow2, batchBody [wRecord]),
    (batchKey "p/" wNow3, batchBody [wRecord])]

theorem sortedJsonlKeys_ne_nil {store : S3State} {pfx : String}
    (h : (store.map Prod.fst).filter
      (fun k => pyStartsWith k pfx && pyEndsWith k ".jsonl") ≠ []) :
    sortedJsonlKeys store pfx ≠ [] := by
  intro e
  exact h ((List.perm_insertionSort (fun a b : String => a ≤ b) _).symm.trans
    (e ▸ List.Perm.refl _)).eq_nil

/-- C6 witness: with three batches stored and `limit=2`, the endpoint
returns exactly the records of the last two keys in sorted order. -/
theorem listing_selects_last_n_witness :
    list_products wStore3 "p/" 2 =
      .ok (((sortedJsonlKeys wStore3 "p/").drop
        ((sortedJsonlKeys wStore3 "p/").length - (2 : Int).toNat)).flatMap
        (fun k => ([wRecord]).map canonFlat)) :=
  (listing_selects_last_n wStore3 "p/" 2 (by decide) (fun k => [wRecord])
    (fun e he h1 h2 => by
      simp only [wStore3, List.mem_cons, List.not_mem_nil, or_false] at he
      rcases he with he | he | he <;> subst he <;> exact ⟨rfl, by decide⟩)
    (sortedJsonlKeys_ne_nil (by decide))).2.2

theorem find?_s3Put (store : S3State) (k body : String) :
    ((s3Put store k body).find? (fun e => e.1 == k)).map (fun e => e.2) =
      some body := by
  simp only [s3Put]
  rw [List.find?_append]
  have h1 : (store.filter (fun e => e.1 ≠ k)).find? (fun e => e.1 == k) =
      Option.none := by
    rw [List.find?_eq_none]
    intro e he
    have := (List.mem_filter.mp he).2
    simp_all
  rw [h1]
  simp [List.find?]

/-- C1: publishing a non-empty batch of clean records into any store and
then listing with `limit=1` — when the batch's key is the lexically
greatest `.jsonl` key under the prefix — returns exactly the batch's
records (each in canonical key order, the form Python dict equality
identifies with the original), in the original within-object order. -/
theorem publish_then_list_roundtrip (bucket pfx : String) (now : UTCNow)
    (store : S3State) (products : List PyVal)
    (hclean : cleanBatch products = true)
    (hmax : ∀ k ∈ sortedJsonlKeys
      (applyPuts store (upload_to_s3 bucket pfx now products).puts) pfx,
      k ≤ batchKey pfx now) :
    list_products
        (applyPuts store (upload_to_s3 bucket pfx now products).puts)
        pfx 1 =
      .ok (products.map canonFlat) := by
  have hne : products ≠ [] := by
    simp only [cleanBatch, Bool.and_eq_true, Bool.not_eq_true'] at hclean
    exact fun e => by simp [e] at hclean
  have hputs : (upload_to_s3 bucket pfx now products).puts =
      [(batchKey pfx now, batchBody products)] := by
    simp [upload_to_s3, List.isEmpty_iff, hne]
  rw [hputs] at hmax ⊢
  have happ : applyPuts store [(batchKey pfx now, batchBody products)] =
      s3Put store (batchKey pfx now) (batchBody products) := rfl
  rw [happ] at hmax ⊢
  have hkeymem : batchKey pfx now ∈
      sortedJsonlKeys (s3Put store (batchKey pfx now) (batchBody products))
        pfx := by
    refine mem_sortedJsonlKeys_iff.mpr ⟨?_, batchKey_startsWith pfx now,
      batchKey_endsWith pfx now⟩
    simp [s3Put]
  have hkne : sortedJsonlKeys
      (s3Put store (batchKey pfx now) (batchBody products)) pfx ≠ [] :=
    List.ne_nil_of_mem hkeymem
  have hlast : (sortedJsonlKeys
      (s3Put store (batchKey pfx now) (batchBody products)) pfx).getLast
        hkne = batchKey pfx now :=
    getLast_eq_max (sortedJsonlKeys_sorted _ _) hkeymem hmax hkne
  simp only [list_products]
  rw [if_neg (by simpa [List.isEmpty_iff] using hkne)]
  rw [show (-(1 : Int)) = -1 from rfl, pySliceFrom_neg_one _ hkne, hlast]
  simp only [List.foldlM_cons, List.foldlM_nil]
  rw [readKeyStep_eval _ (batchKey pfx now) [] products
    (find?_s3Put store (batchKey pfx now) (batchBody products)) hclean]
  simp [bind, Except.bind, pure, Except.pure]

/-- C1 witness: publishing the one-record batch `[wRecord]` into an empty
store and listing with `limit=1` returns exactly that record in canonical
form. -/
theorem publish_then_list_roundtrip_witness :
    list_products
        (applyPuts [] (upload_to_s3 "b" "p/" wNow [wRecord]).puts) "p/" 1 =
      .ok ([wRecord].map canonFlat) :=
  publish_then_list_roundtrip "b" "p/" wNow [] [wRecord] (by decide)
    (fun k hk => by
      have h := (mem_sortedJsonlKeys_iff.mp hk).1
      simp [applyPuts, upload_to_s3, s3Put] at h
      exact le_of_eq h)
